import Mathlib

/-!
# Verification of the Minesweeper inference engine (`minesweeper.py`)

A shallow embedding of the `Sentence` and `MinesweeperAI` classes of the
repository, together with proofs and refutations of the specification's
claims about them.

Conventions of the embedding:

* A `Cell` is an integer pair `(row, column)`, as in the Python source
  (`cell[0]`, `cell[1]`); Python integers are modelled by `ℤ`.
* Python `set` values become `Finset Cell`; Python lists of sentences become
  `List Sentence`.  Python's `Sentence.__eq__` compares the cell set and the
  count, which is definitional equality of the `Sentence` structure here, so
  `list.remove`, `in` and `not in` become `List.erase` and list membership.
* The local variable `KB` of `conclude` starts as the *same list object* as
  `self.knowledge` and is rebound to a fresh list by `KB = removed(KB)`.
  After the rebinding, `KB` holds a subset of the sentence objects of
  `self.knowledge`, and `self.mark_safe` / `self.mark_mine` keep mutating
  the objects of both lists.  Since all list operations of the source
  (`remove`, `in`, the dedup in `removed`) compare sentences by value, the
  state is modelled by the two value lists `knowledge` and `kb` plus an
  `aliased` flag telling whether `KB` is still the very list object
  `self.knowledge`; cell marking maps over both lists, which is exactly the
  effect the object sharing has on the values.
* The unbounded `while True` of `conclude` and its inner `for` over a list
  that is mutated mid-iteration (Python's `for` walks an internal index, so
  removing the current element skips the following one) are modelled by
  fuel-indexed recursion; the theorem for claim C3 shows the fuel used is
  enough, i.e. the real loop returns within that many rounds.
-/

set_option autoImplicit false

abbrev Cell := ℤ × ℤ

/-- A concrete enumeration order for cell sets (row-major).  Python iterates
its `set` objects in an unspecified order; every iteration the source does
over a cell set is order-independent, so any fixed enumeration is a faithful
model. -/
def cellOrd (a b : Cell) : Prop := a.1 < b.1 ∨ (a.1 = b.1 ∧ a.2 ≤ b.2)

instance : DecidableRel cellOrd := fun a b => by unfold cellOrd; infer_instance

instance : IsTrans Cell cellOrd := by
  constructor; intro a b c hab hbc
  rcases hab with h | ⟨h1, h2⟩ <;> rcases hbc with h' | ⟨h1', h2'⟩ <;>
    first
      | exact Or.inl (by omega)
      | exact Or.inr (by omega)

instance : IsAntisymm Cell cellOrd := by
  constructor; intro a b hab hba
  rcases hab with h | ⟨h1, h2⟩ <;> rcases hba with h' | ⟨h1', h2'⟩ <;>
    (first | omega | exact Prod.ext (by omega) (by omega))

instance : IsTotal Cell cellOrd := by
  constructor; intro a b
  rcases lt_trichotomy a.1 b.1 with h | h | h
  · exact Or.inl (Or.inl h)
  · rcases le_total a.2 b.2 with h2 | h2
    · exact Or.inl (Or.inr ⟨h, h2⟩)
    · exact Or.inr (Or.inr ⟨h.symm, h2⟩)
  · exact Or.inr (Or.inl h)

/-- Enumerate a cell set in the fixed order (insertion sort reduces inside
the kernel, which the evaluation theorems below need). -/
def cellsList (s : Finset Cell) : List Cell :=
  Quotient.lift (fun l => List.insertionSort cellOrd l)
    (fun l₁ l₂ p => List.eq_of_perm_of_sorted
      ((List.perm_insertionSort cellOrd l₁).trans
        (List.Perm.trans p (List.perm_insertionSort cellOrd l₂).symm))
      (List.sorted_insertionSort cellOrd l₁) (List.sorted_insertionSort cellOrd l₂))
    s.val

theorem mem_cellsList {c : Cell} {s : Finset Cell} : c ∈ cellsList s ↔ c ∈ s := by
  rcases s with ⟨m, nd⟩
  induction m using Quotient.inductionOn with
  | h l =>
      show c ∈ List.insertionSort cellOrd l ↔ _
      rw [(List.perm_insertionSort cellOrd l).mem_iff]
      rfl

/-- `class Sentence`: a statement "exactly `count` of `cells` are mines". -/
structure Sentence where
  cells : Finset Cell
  count : ℤ
deriving DecidableEq

/-- The sentence `Sentence(set(), 0)`, called `empty` in `add_knowledge`. -/
def emptyS : Sentence := ⟨∅, 0⟩

namespace Sentence

/-- `Sentence.known_mines`: `cells` if `len(cells) == count`, else `None`. -/
def known_mines (s : Sentence) : Option (Finset Cell) :=
  if (s.cells.card : ℤ) = s.count then some s.cells else none

/-- `Sentence.known_safes`: `cells` if `count == 0`, else `None`. -/
def known_safes (s : Sentence) : Option (Finset Cell) :=
  if s.count = 0 then some s.cells else none

/-- `Sentence.mark_mine`: if the cell is present, remove it and decrement
`count`; otherwise do nothing. -/
def mark_mine (cell : Cell) (s : Sentence) : Sentence :=
  if cell ∈ s.cells then ⟨s.cells.erase cell, s.count - 1⟩ else s

/-- `Sentence.mark_safe`: if the cell is present, remove it; `count` is
unchanged. -/
def mark_safe (cell : Cell) (s : Sentence) : Sentence :=
  if cell ∈ s.cells then ⟨s.cells.erase cell, s.count⟩ else s

/-- Truthiness of `if k.known_safes():` in `conclude`: the call returns a
set (not `None`) and that set is non-empty. -/
def fireSafes (s : Sentence) : Prop := s.count = 0 ∧ s.cells ≠ ∅

/-- Truthiness of `elif k.known_mines():` in `conclude`. -/
def fireMines (s : Sentence) : Prop := (s.cells.card : ℤ) = s.count ∧ s.cells ≠ ∅

instance (s : Sentence) : Decidable s.fireSafes := by unfold fireSafes; infer_instance

instance (s : Sentence) : Decidable s.fireMines := by unfold fireMines; infer_instance

end Sentence

/-- The helper `removed(KB)` of `add_knowledge`: keep the first occurrence of
each sentence value, dropping duplicates and every sentence equal to
`Sentence(set(), 0)`. -/
def removedGo (acc : List Sentence) : List Sentence → List Sentence
  | [] => acc
  | s :: rest => removedGo (if s ∈ acc ∨ s = emptyS then acc else acc ++ [s]) rest

/-- `removed(KB)` entry point. -/
def removedFn (l : List Sentence) : List Sentence := removedGo [] l

/-- The 3×3 block `range(i-1, i+2) × range(j-1, j+2)` scanned by both
`nearby_mines` and `add_knowledge`. -/
def cube (c : Cell) : Finset Cell :=
  ({c.1 - 1, c.1, c.1 + 1} : Finset ℤ) ×ˢ ({c.2 - 1, c.2, c.2 + 1} : Finset ℤ)

/-- The cell set of the sentence built by `add_knowledge`: the surrounding
cells that are not the cell itself, have coordinates `> -1`, are not in
`moves_made`, and have coordinates `< 8` — the literal bound of the source,
not the configured grid dimensions. -/
def nbhdCells (moves : Finset Cell) (c : Cell) : Finset Cell :=
  (cube c).filter fun p =>
    ¬(p.1 = c.1 ∧ p.2 = c.2) ∧ -1 < p.1 ∧ -1 < p.2 ∧ p ∉ moves ∧ p.1 < 8 ∧ p.2 < 8

/-- The inference step of `add_knowledge` for one pre-existing sentence
`ki` against the new `sentence`: the `issubset` comparisons and the
`inferred != empty` filter, in source order (`if` / `elif`). -/
def inferOne (ki sentence : Sentence) : List Sentence :=
  if ki.cells ⊆ sentence.cells then
    let inferred : Sentence := ⟨sentence.cells \ ki.cells, sentence.count - ki.count⟩
    if inferred = emptyS then [] else [inferred]
  else if sentence.cells ⊆ ki.cells then
    let inferred : Sentence := ⟨ki.cells \ sentence.cells, ki.count - sentence.count⟩
    if inferred = emptyS then [] else [inferred]
  else []

/-- State of `MinesweeperAI` (the `height`/`width` fields are stored by
`__init__` but never read by any method of the class). -/
structure MinesweeperAI where
  height : ℤ
  width : ℤ
  moves_made : Finset Cell
  mines : Finset Cell
  safes : Finset Cell
  knowledge : List Sentence
deriving DecidableEq

/-- `MinesweeperAI(height, width)`. -/
def initAI (h w : ℤ) : MinesweeperAI :=
  ⟨h, w, ∅, ∅, ∅, []⟩

/-- State during `conclude`: the knowledge base sets plus the two sentence
lists (`self.knowledge` and the local `KB`) and whether they are still the
same list object. -/
structure CState where
  safes : Finset Cell
  mines : Finset Cell
  knowledge : List Sentence
  kb : List Sentence
  aliased : Bool
deriving DecidableEq

namespace CState

/-- `MinesweeperAI.mark_safe`: add to `safes` and mark every sentence (the
objects of `KB` are among the objects of `self.knowledge`, so both value
lists are mapped). -/
def cMarkSafe (cell : Cell) (s : CState) : CState :=
  { s with safes := insert cell s.safes,
           knowledge := s.knowledge.map (Sentence.mark_safe cell),
           kb := s.kb.map (Sentence.mark_safe cell) }

/-- `MinesweeperAI.mark_mine`, likewise. -/
def cMarkMine (cell : Cell) (s : CState) : CState :=
  { s with mines := insert cell s.mines,
           knowledge := s.knowledge.map (Sentence.mark_mine cell),
           kb := s.kb.map (Sentence.mark_mine cell) }

/-- `KB.remove(v)`: removes the first value match from `KB`; while `KB` is
still the object `self.knowledge`, this is a removal from `self.knowledge`
too. -/
def cErase (v : Sentence) (s : CState) : CState :=
  { s with kb := s.kb.erase v,
           knowledge := if s.aliased then s.knowledge.erase v else s.knowledge }

/-- `KB = removed(KB)`: rebinds the local `KB` to a fresh list. -/
def cRebind (s : CState) : CState :=
  { s with kb := removedFn s.kb, aliased := false }

/-- `for cell in cells: self.mark_safe(cell)` over the deep-copied snapshot. -/
def markAllSafe (cells : List Cell) (s : CState) : CState :=
  cells.foldl (fun st c => cMarkSafe c st) s

/-- `for cell in cells: self.mark_mine(cell)` over the deep-copied snapshot. -/
def markAllMine (cells : List Cell) (s : CState) : CState :=
  cells.foldl (fun st c => cMarkMine c st) s

end CState

/-- The effect on one sentence value of marking a list of cells in turn
(used to reason about `markAllSafe` / `markAllMine`, which fold the marking
of the whole state over the snapshot list). -/
def markFold (f : Cell → Sentence → Sentence) (cells : List Cell) (t : Sentence) : Sentence :=
  cells.foldl (fun u c => f c u) t

/-- "No sentence of the list mentions any cell of `X`" (used for the
invariant that revealed cells never reappear inside sentences). -/
def avoidList (X : Finset Cell) (l : List Sentence) : Prop :=
  ∀ s ∈ l, ∀ x ∈ X, x ∉ s.cells

/-- A sentence is true of the mine set `M`: exactly `count` of its cells
are mines. -/
def TrueS (M : Finset Cell) (s : Sentence) : Prop :=
  ((s.cells ∩ M).card : ℤ) = s.count

/-- Soundness invariant carried through `conclude` for a game with mine set
`M`: every sentence of both lists is true of `M`, no known-safe cell is a
mine and every known mine is one. -/
def CInv (M : Finset Cell) (cs : CState) : Prop :=
  (∀ s ∈ cs.knowledge, TrueS M s) ∧ (∀ s ∈ cs.kb, TrueS M s) ∧
  cs.safes ∩ M = ∅ ∧ cs.mines ⊆ M

/-- Soundness invariant of the whole AI state for a game with mine set `M`. -/
def AIInv (M : Finset Cell) (st : MinesweeperAI) : Prop :=
  (∀ s ∈ st.knowledge, TrueS M s) ∧ st.safes ∩ M = ∅ ∧ st.mines ⊆ M ∧
  st.moves_made ∩ M = ∅

/-- A list of sentences none of which resolution can fire on: neither
`known_safes()` nor `known_mines()` is truthy for any member. -/
def NFList (l : List Sentence) : Prop :=
  ∀ s ∈ l, ¬s.fireSafes ∧ ¬s.fireMines

/-- The shape the sentence list can have when `conclude` starts: either no
empty sentence at all, or exactly one — the freshly appended new sentence —
sitting between the marked old sentences `L` and the inference results `R`,
whose head (if any) is the head of `L` replayed or an empty-cells
sentence. -/
def SBshape (kb : List Sentence) : Prop :=
  ∃ L R, kb = L ++ emptyS :: R ∧ emptyS ∉ L ∧ emptyS ∉ R ∧
    (R = [] ∨ ∃ r R', R = r :: R' ∧ ((∃ L', L = r :: L') ∨ r.cells = ∅))

/-- Every sentence value of `self.knowledge` is still present in the local
`KB`, or has been emptied out: the objects `KB` drops other than empties
are duplicates of survivors, and marking keeps equal values equal. -/
def kbCovers (cs : CState) : Prop :=
  ∀ v ∈ cs.knowledge, v ∈ cs.kb ∨ v = emptyS

/-- Result of one `for k in KB:` pass of `conclude`: either some sentence
fired (resolution) and the pass was left by `break`, or the pass ran to the
end; `last` is the value of the loop variable `k` after the pass. -/
inductive PassResult where
  | fired (s : CState)
  | done (s : CState) (last : Option Sentence)
deriving DecidableEq

/-- The knowledge-base state carried by a pass result. -/
def PassResult.state : PassResult → CState
  | .fired s => s
  | .done s _ => s

/-- The body of a resolution firing: mark every cell of the snapshot of
`k.cells` (which empties `k` itself and zeroes its count), then
`KB.remove(k)` — `k`'s value is now `Sentence(set(), 0)` — then
`KB = removed(KB)`. -/
def fireStep (safe : Bool) (k : Sentence) (s : CState) : CState :=
  let s1 := if safe then CState.markAllSafe (cellsList k.cells) s
            else CState.markAllMine (cellsList k.cells) s
  (CState.cErase emptyS s1).cRebind

/-- One `for k in KB:` pass, walking an index like Python's list iterator:
removal of the current element (the `if k == empty` branch) shifts the rest
of the list down, so the following element is skipped. `fuel` only needs to
dominate `kb.length - i`. -/
def concludeForAux : ℕ → CState → ℕ → Option Sentence → PassResult
  | 0, s, _, last => .done s last
  | fuel + 1, s, i, last =>
    match s.kb.get? i with
    | none => .done s last
    | some k =>
      let s1 := if k = emptyS then CState.cErase emptyS s else s
      if k.fireSafes then .fired (fireStep true k s1)
      else if k.fireMines then .fired (fireStep false k s1)
      else concludeForAux fuel s1 (i + 1) (some k)

/-- The return test after a pass:
`(len(KB) > 0 and k == KB[-1]) or len(KB) == 0`. -/
def whileStop (last : Option Sentence) (kb : List Sentence) : Bool :=
  match kb.getLast? with
  | none => true
  | some v => decide (last = some v)

/-- The `while True` of `conclude`.  After a `break` caused by a firing, the
loop variable `k` holds the fired sentence object, whose value is by then
`Sentence(set(), 0)`. -/
def concludeLoop : ℕ → CState → CState
  | 0, s => s
  | fuel + 1, s =>
    match concludeForAux s.kb.length s 0 none with
    | .fired s' => if whileStop (some emptyS) s'.kb then s' else concludeLoop fuel s'
    | .done s' last => if whileStop last s'.kb then s' else concludeLoop fuel s'

/-- `MinesweeperAI.add_knowledge(cell, count)`. -/
def add_knowledge (st : MinesweeperAI) (cell : Cell) (count : ℤ) : MinesweeperAI :=
  -- self.moves_made.add(cell); self.mark_safe(cell)
  let moves' : Finset Cell := insert cell st.moves_made
  let safes' : Finset Cell := insert cell st.safes
  let know1 : List Sentence := st.knowledge.map (Sentence.mark_safe cell)
  -- build the new sentence over the surrounding cells
  let sentence : Sentence := ⟨nbhdCells moves' cell, count⟩
  -- if sentence not in self.knowledge: append it and run the subset inference
  -- against the sentences that were present before the append
  let know2 : List Sentence :=
    if sentence ∈ know1 then know1
    else (know1 ++ [sentence]) ++ know1.foldl (fun acc ki => acc ++ inferOne ki sentence) []
  -- conclude(self.knowledge): KB starts as the same list object
  let cs : CState := ⟨safes', st.mines, know2, know2, true⟩
  let cs' : CState := concludeLoop (cs.kb.length + 1) cs
  -- self.knowledge = removed(self.knowledge)
  { height := st.height, width := st.width, moves_made := moves',
    mines := cs'.mines, safes := cs'.safes, knowledge := removedFn cs'.knowledge }

/-- The grid of a board with the given dimensions: `0 <= i < height`,
`0 <= j < width`. -/
def gridCells (h w : ℤ) : Finset Cell :=
  (Finset.Icc 0 (h - 1)) ×ˢ (Finset.Icc 0 (w - 1))

/-- `Minesweeper.nearby_mines(cell)` for a board with mine set `M`: the
number of cells within one row and column of `cell`, other than `cell`
itself, that are in bounds (with respect to the *configured* dimensions —
the game class, unlike the AI, uses them) and contain a mine. -/
def nearbyMines (h w : ℤ) (M : Finset Cell) (c : Cell) : ℤ :=
  (((cube c).filter fun p =>
    ¬(p.1 = c.1 ∧ p.2 = c.2) ∧ 0 ≤ p.1 ∧ p.1 < h ∧ 0 ≤ p.2 ∧ p.2 < w ∧ p ∈ M).card : ℤ)

/-- The cells `make_random_move` can return: the loop draws
`random.randint(0, 7)` twice — the literal 8×8 range — and returns the first
draw outside `moves_made` and `mines`. -/
def randCandidates (st : MinesweeperAI) : Finset Cell :=
  ((Finset.Icc (0 : ℤ) 7) ×ˢ (Finset.Icc (0 : ℤ) 7)).filter
    fun p => p ∉ st.moves_made ∧ p ∉ st.mines

/-- `MinesweeperAI.make_random_move` as a function of the stream of random
draws: the retry loop returns the first draw that is a candidate; `none`
means the loop is still spinning after the whole stream. -/
def make_random_move (st : MinesweeperAI) (draws : List Cell) : Option Cell :=
  draws.find? fun p => decide (p ∈ randCandidates st)

/-- States of the AI reachable through `add_knowledge` calls with arbitrary
arguments. -/
inductive ReachableAI : MinesweeperAI → Prop where
  | init (h w : ℤ) : ReachableAI (initAI h w)
  | step {st : MinesweeperAI} (cell : Cell) (count : ℤ) :
      ReachableAI st → ReachableAI (add_knowledge st cell count)

/-- States of the AI reachable in a real game on an `h × w` board with mine
set `M`: every revealed cell is an in-grid non-mine and every count is the
board's `nearby_mines` answer. -/
inductive ReachableSound (h w : ℤ) (M : Finset Cell) : MinesweeperAI → Prop where
  | init : ReachableSound h w M (initAI h w)
  | step {st : MinesweeperAI} (cell : Cell) :
      ReachableSound h w M st → cell ∈ gridCells h w → cell ∉ M →
      ReachableSound h w M (add_knowledge st cell (nearbyMines h w M cell))

/-! ### Concrete states used by the refutations -/

/-- Mine set of an 8×8 board on which three reveals leave the knowledge base
away from the subset-inference fixpoint. -/
def mines2 : Finset Cell := {(1,1), (1,2), (3,0)}

/-- Reveal `(0,0)`, `(2,0)`, `(0,1)` on the `mines2` board (the counts `1`,
`2`, `2` are this board's `nearby_mines` answers). -/
def state2 : MinesweeperAI :=
  add_knowledge (add_knowledge (add_knowledge (initAI 8 8) (0,0) 1) (2,0) 2) (0,1) 2

/-- Mine set of a 9×9 board whose bottom-right mines sit beyond the AI's
hardcoded coordinate bound of 8. -/
def mines4 : Finset Cell := {(6,8), (7,8), (8,6), (8,7)}

/-- Mine set of a 9×9 board: all three mines out of the hardcoded range. -/
def mines6 : Finset Cell := {(8,6), (8,7), (8,8)}

/-- Reveal `(7,7)` then `(6,6)` on the `mines6` board (counts `3` and `0`
are this board's `nearby_mines` answers). -/
def state6 : MinesweeperAI :=
  add_knowledge (add_knowledge (initAI 9 9) (7,7) 3) (6,6) 0

/-- A knowledge-base state from which two identical `add_knowledge` calls
are not idempotent: the four sentences interlock so that the first call
leaves a subset pair unexploited and the repeated insertion of the same
sentence then fires a fresh inference. -/
def state8 : MinesweeperAI :=
  { height := 8, width := 8,
    moves_made := {(0,0), (0,1), (0,2), (1,0)},
    mines := ∅, safes := ∅,
    knowledge := [⟨{(1,2), (2,0), (5,5)}, 2⟩,
                  ⟨{(1,2), (2,0), (2,1), (2,2), (5,5)}, 2⟩,
                  ⟨{(2,2), (6,6)}, 1⟩,
                  ⟨{(1,2), (2,0), (2,1), (2,2), (6,6)}, 2⟩] }

/-- A 9×9-game state in which every cell of the AI's fixed random-move
range `[0,8) × [0,8)` has already been revealed, while the in-grid cell
`(8,8)` has not. -/
def state5 : MinesweeperAI :=
  { initAI 9 9 with moves_made := (Finset.Icc (0 : ℤ) 7) ×ˢ (Finset.Icc (0 : ℤ) 7) }

/-! ### Helper lemmas about `make_random_move` -/

/-- Whatever the retry loop returns is a candidate: inside the fixed
`[0,8) × [0,8)` range, unrevealed, and not a known mine. -/
theorem make_random_move_mem {st : MinesweeperAI} {draws : List Cell} {r : Cell}
    (h : make_random_move st draws = some r) : r ∈ randCandidates st := by
  have := List.find?_some h
  simpa using this

/-- With no candidate in the fixed range, the retry loop never returns, for
any draw stream. -/
theorem make_random_move_none {st : MinesweeperAI} (h : randCandidates st = ∅)
    (draws : List Cell) : make_random_move st draws = none := by
  refine List.find?_eq_none.mpr ?_
  intro p _
  simp only [decide_eq_true_eq]
  intro hp
  rw [h] at hp
  exact absurd hp (Finset.not_mem_empty p)

/-- Any candidate can come out of the loop: it is returned as soon as it is
drawn. -/
theorem make_random_move_single {st : MinesweeperAI} {r : Cell}
    (h : r ∈ randCandidates st) : make_random_move st [r] = some r := by
  simp [make_random_move, List.find?, h]

/-! ### Claim theorems: evaluations and refutations -/

/-- C1 (code bug): on a 3×3 board — mine at `(1,1)`, so revealing `(2,2)`
soundly reports count 1 — `add_knowledge` builds its sentence with the
literal bound 8 instead of the configured dimensions: the sentence keeps
the out-of-grid neighbor `(3,3)`. -/
theorem ai_c1_hardcoded_bounds :
    (1 : ℤ) = nearbyMines 3 3 {(1,1)} (2,2) ∧
    ({((1,1) : Cell)} : Finset Cell) ⊆ gridCells 3 3 ∧
    (∃ s ∈ (add_knowledge (initAI 3 3) (2,2) 1).knowledge,
      ((3,3) : Cell) ∈ s.cells) ∧
    ((3,3) : Cell) ∉ gridCells 3 3 := by decide

/-- C7 counterexample: `Sentence.mark_mine` on a sentence whose count is
already 0 silently returns the violating state with count `-1`; there is no
assertion or failure path in the operation. -/
theorem ai_c7_counterexample :
    Sentence.mark_mine (0,0) ⟨{(0,0)}, 0⟩ = ⟨∅, -1⟩ ∧
    ¬(0 ≤ (Sentence.mark_mine (0,0) ⟨{(0,0)}, 0⟩).count) := by decide

/-- C7 amended: when the cell is present, `mark_mine` always produces the
decremented sentence and returns it — the operation is total and never
fails, even when the decrement violates `0 ≤ count`. -/
theorem ai_c7_silent_update (s : Sentence) (c : Cell) (h : c ∈ s.cells) :
    Sentence.mark_mine c s = ⟨s.cells.erase c, s.count - 1⟩ := by
  simp [Sentence.mark_mine, h]

/-- Witness for `ai_c7_silent_update` at a concrete sentence. -/
theorem ai_c7_silent_update_witness :
    ((0,0) : Cell) ∈ (Sentence.mk {(0,0)} 0).cells ∧
    Sentence.mark_mine (0,0) ⟨{(0,0)}, 0⟩ =
      ⟨(Sentence.mk {(0,0)} 0).cells.erase (0,0), (Sentence.mk {(0,0)} 0).count - 1⟩ :=
  ⟨by decide, ai_c7_silent_update ⟨{(0,0)}, 0⟩ (0,0) (by decide)⟩

/-- C2 counterexample: on the 8×8 board with mines `mines2`, after the third
(sound) `record` call the knowledge base holds the live pair
`A = ({(1,0),(1,1)}, 1) ⊆ B = ({(1,0),(1,1),(2,1),(3,0),(3,1)}, 2)` whose
difference `({(2,1),(3,0),(3,1)}, 1)` is non-trivial and absent: the state
is not at the subset-inference fixpoint. -/
theorem ai_c2_counterexample :
    ReachableSound 8 8 mines2 state2 ∧
    (Sentence.mk {(1,0),(1,1)} 1) ∈ state2.knowledge ∧
    (Sentence.mk {(1,0),(1,1),(2,1),(3,0),(3,1)} 2) ∈ state2.knowledge ∧
    Sentence.mk {(1,0),(1,1)} 1 ≠ Sentence.mk {(1,0),(1,1),(2,1),(3,0),(3,1)} 2 ∧
    ({(1,0),(1,1)} : Finset Cell) ⊆ {(1,0),(1,1),(2,1),(3,0),(3,1)} ∧
    (Sentence.mk (({(1,0),(1,1),(2,1),(3,0),(3,1)} : Finset Cell) \ {(1,0),(1,1)}) (2-1))
      ∉ state2.knowledge ∧
    (({(1,0),(1,1),(2,1),(3,0),(3,1)} : Finset Cell) \ {(1,0),(1,1)}) ≠ ∅ := by
  constructor
  · have h1 : nearbyMines 8 8 mines2 (0,0) = 1 := by decide
    have h2 : nearbyMines 8 8 mines2 (2,0) = 2 := by decide
    have h3 : nearbyMines 8 8 mines2 (0,1) = 2 := by decide
    have r1 := ReachableSound.step (0,0) (@ReachableSound.init 8 8 mines2)
      (by decide) (by decide)
    rw [h1] at r1
    have r2 := ReachableSound.step (2,0) r1 (by decide) (by decide)
    rw [h2] at r2
    have r3 := ReachableSound.step (0,1) r2 (by decide) (by decide)
    rw [h3] at r3
    exact r3
  · decide

/-- C4 counterexample: on a 9×9 board with mines `mines4`, the sound reveal
of `(7,7)` (its true nearby count is 4) leaves a live sentence with
`count = 4` over only 3 cells — out-of-grid clipping at the literal 8
discarded the neighbors that carry the mines. -/
theorem ai_c4_counterexample :
    ReachableSound 9 9 mines4 (add_knowledge (initAI 9 9) (7,7) 4) ∧
    mines4 ⊆ gridCells 9 9 ∧
    (∃ s ∈ (add_knowledge (initAI 9 9) (7,7) 4).knowledge,
      ¬(s.count ≤ (s.cells.card : ℤ))) := by
  refine ⟨?_, by decide, by decide⟩
  have h1 : nearbyMines 9 9 mines4 (7,7) = 4 := by decide
  have r1 := ReachableSound.step (7,7) (@ReachableSound.init 9 9 mines4)
    (by decide) (by decide)
  rw [h1] at r1
  exact r1

/-- C6 counterexample: on a 9×9 board with mines `mines6`, after two sound
`record` calls the cell `(6,6)` is in `safes ∩ mines`: the first call
wrongly concluded it is a mine (the sentence was built against the
hardcoded bound), the second call revealed it. -/
theorem ai_c6_counterexample :
    ReachableSound 9 9 mines6 state6 ∧
    mines6 ⊆ gridCells 9 9 ∧
    ((6,6) : Cell) ∈ state6.safes ∧ ((6,6) : Cell) ∈ state6.mines := by
  refine ⟨?_, by decide, by decide, by decide⟩
  have h1 : nearbyMines 9 9 mines6 (7,7) = 3 := by decide
  have h2 : nearbyMines 9 9 mines6 (6,6) = 0 := by decide
  have r1 := ReachableSound.step (7,7) (@ReachableSound.init 9 9 mines6)
    (by decide) (by decide)
  rw [h1] at r1
  have r2 := ReachableSound.step (6,6) r1 (by decide) (by decide)
  rw [h2] at r2
  exact r2

/-- C8 counterexample: from `state8`, calling `add_knowledge((1,1), 1)`
twice in succession is not idempotent — the second call adds the new safe
cell `(2,1)`. -/
theorem ai_c8_counterexample :
    ((2,1) : Cell) ∉ (add_knowledge state8 (1,1) 1).safes ∧
    ((2,1) : Cell) ∈ (add_knowledge (add_knowledge state8 (1,1) 1) (1,1) 1).safes := by
  decide

/-- C5 counterexample: `make_random_move` ranges over the literal
`[0,8) × [0,8)` grid, not the configured one.  On a 3×3 instance it can
return the out-of-grid cell `(7,7)`; and in `state5` (a 9×9 game with the
whole 8×8 range revealed) a legal candidate `(8,8)` exists per the
configured dimensions, yet the retry loop never returns. -/
theorem ai_c5_counterexample :
    make_random_move (initAI 3 3) [(7,7)] = some (7,7) ∧
    ((7,7) : Cell) ∉ gridCells 3 3 ∧
    ((8,8) : Cell) ∈ gridCells 9 9 ∧
    ((8,8) : Cell) ∉ state5.moves_made ∧ ((8,8) : Cell) ∉ state5.mines ∧
    (∀ draws : List Cell, make_random_move state5 draws = none) := by
  refine ⟨by decide, by decide, by decide, by decide, by decide, ?_⟩
  exact make_random_move_none (by decide)

/-- C5 amended: the fallback move is drawn from the literal `[0,8) × [0,8)`
range.  Every returned cell is in that range, unrevealed and not a known
mine; any such cell can be returned; and when no such cell exists the retry
loop never returns, whatever the random draws. -/
theorem ai_c5_random_move (st : MinesweeperAI) :
    (∀ draws r, make_random_move st draws = some r → r ∈ randCandidates st) ∧
    (randCandidates st = ∅ → ∀ draws, make_random_move st draws = none) ∧
    (∀ r ∈ randCandidates st, make_random_move st [r] = some r) :=
  ⟨fun _ _ h => make_random_move_mem h,
   fun h draws => make_random_move_none h draws,
   fun _ h => make_random_move_single h⟩

/-- Witness for `ai_c5_random_move` at a concrete state. -/
theorem ai_c5_random_move_witness :
    ((7,7) : Cell) ∈ randCandidates (initAI 3 3) ∧
    make_random_move (initAI 3 3) [(7,7)] = some (7,7) :=
  ⟨by decide, (ai_c5_random_move (initAI 3 3)).2.2 (7,7) (by decide)⟩

/-- C10: the sentence constructed by `add_knowledge` filters its cell set
only by the bounds and `moves_made`; a surrounding cell already recorded in
`safes` or `mines` is still included. -/
theorem ai_c10_no_prior_filtering (st : MinesweeperAI) (cell p : Cell) (count : ℤ)
    (hp : p ∈ cube cell) (hne : ¬(p.1 = cell.1 ∧ p.2 = cell.2))
    (h1 : -1 < p.1) (h2 : -1 < p.2) (h3 : p.1 < 8) (h4 : p.2 < 8)
    (hm : p ∉ insert cell st.moves_made)
    (hknown : p ∈ st.safes ∪ st.mines) :
    p ∈ (Sentence.mk (nbhdCells (insert cell st.moves_made) cell) count).cells := by
  show p ∈ nbhdCells (insert cell st.moves_made) cell
  rw [nbhdCells, Finset.mem_filter]
  exact ⟨hp, hne, h1, h2, hm, h3, h4⟩

/-- Witness for `ai_c10_no_prior_filtering`: a neighbor already known safe
is still put into the new sentence. -/
theorem ai_c10_no_prior_filtering_witness :
    ((4,5) : Cell) ∈ cube (4,4) ∧
    ¬(((4,5) : Cell).1 = ((4,4) : Cell).1 ∧ ((4,5) : Cell).2 = ((4,4) : Cell).2) ∧
    ((4,5) : Cell) ∉ insert ((4,4) : Cell) ({} : Finset Cell) ∧
    ((4,5) : Cell) ∈ ({(4,5)} : Finset Cell) ∪ ({} : Finset Cell) ∧
    ((4,5) : Cell) ∈ (Sentence.mk
      (nbhdCells (insert ((4,4) : Cell)
        { initAI 8 8 with safes := {(4,5)} }.moves_made) (4,4)) 2).cells :=
  ⟨by decide, by decide, by decide, by decide,
    ai_c10_no_prior_filtering { initAI 8 8 with safes := {(4,5)} } (4,4) (4,5) 2
      (by decide) (by decide) (by decide) (by decide) (by decide) (by decide)
      (by decide) (by decide)⟩

/-! ### Structure of the marking folds -/

theorem mark_safe_eq (c : Cell) (t : Sentence) :
    Sentence.mark_safe c t = ⟨t.cells.erase c, t.count⟩ := by
  unfold Sentence.mark_safe
  split
  · rfl
  · rename_i h
    cases t
    simp_all [Finset.erase_eq_of_not_mem]

theorem markFold_safe (l : List Cell) (t : Sentence) :
    markFold Sentence.mark_safe l t = ⟨t.cells \ l.toFinset, t.count⟩ := by
  induction l generalizing t with
  | nil => cases t; simp [markFold]
  | cons c cs ih =>
      show markFold Sentence.mark_safe cs (Sentence.mark_safe c t) = _
      rw [ih, mark_safe_eq]
      congr 1
      ext x
      simp only [Finset.mem_sdiff, Finset.mem_erase, List.toFinset_cons, Finset.mem_insert,
        List.mem_toFinset]
      tauto

theorem markFold_mine (l : List Cell) (t : Sentence) (hnd : l.Nodup)
    (hsub : ∀ c ∈ l, c ∈ t.cells) :
    markFold Sentence.mark_mine l t = ⟨t.cells \ l.toFinset, t.count - l.length⟩ := by
  induction l generalizing t with
  | nil => cases t; simp [markFold]
  | cons c cs ih =>
      have hc : c ∈ t.cells := hsub c (List.mem_cons_self c cs)
      have hmm : Sentence.mark_mine c t = ⟨t.cells.erase c, t.count - 1⟩ := by
        simp [Sentence.mark_mine, hc]
      have ih' := ih ⟨t.cells.erase c, t.count - 1⟩ (List.Nodup.of_cons hnd)
        (fun d hd => Finset.mem_erase.mpr
          ⟨fun hdc => (List.nodup_cons.mp hnd).1 (hdc ▸ hd), hsub d (List.mem_cons_of_mem c hd)⟩)
      show markFold Sentence.mark_mine cs (Sentence.mark_mine c t) = _
      rw [hmm, ih']
      congr 1
      · ext x
        simp only [Finset.mem_sdiff, Finset.mem_erase, List.toFinset_cons, Finset.mem_insert,
          List.mem_toFinset]
        tauto
      · simp only [List.length_cons]
        push_cast
        ring

theorem cellsList_nodup (s : Finset Cell) : (cellsList s).Nodup := by
  rcases s with ⟨m, nd⟩
  induction m using Quotient.inductionOn with
  | h l =>
      exact (List.perm_insertionSort cellOrd l).nodup_iff.mpr nd

theorem cellsList_length (s : Finset Cell) : (cellsList s).length = s.card := by
  rcases s with ⟨m, nd⟩
  induction m using Quotient.inductionOn with
  | h l =>
      exact (List.perm_insertionSort cellOrd l).length_eq

theorem cellsList_toFinset (s : Finset Cell) : (cellsList s).toFinset = s := by
  ext c
  rw [List.mem_toFinset, mem_cellsList]

/-- The fired sentence itself ends up as the empty sentence after its whole
cell set is marked safe. -/
theorem markFold_safe_self (k : Sentence) (h : k.fireSafes) :
    markFold Sentence.mark_safe (cellsList k.cells) k = emptyS := by
  rw [markFold_safe, cellsList_toFinset, h.1]
  simp [emptyS, Finset.sdiff_self]

/-- Likewise for a mine firing: the count is decremented down to zero as
the cells disappear. -/
theorem markFold_mine_self (k : Sentence) (h : k.fireMines) :
    markFold Sentence.mark_mine (cellsList k.cells) k = emptyS := by
  rw [markFold_mine _ _ (cellsList_nodup _) (fun c hc => mem_cellsList.mp hc),
    cellsList_toFinset, cellsList_length]
  have h1 := h.1
  rw [← h1]
  simp [emptyS, Finset.sdiff_self]

/-! ### Shape of the whole-state marking operations -/

theorem markAllSafe_spec (cells : List Cell) (s : CState) :
    ∃ S : Finset Cell, CState.markAllSafe cells s =
      ⟨S, s.mines, s.knowledge.map (markFold Sentence.mark_safe cells),
       s.kb.map (markFold Sentence.mark_safe cells), s.aliased⟩ ∧ s.safes ⊆ S := by
  induction cells generalizing s with
  | nil =>
      refine ⟨s.safes, ?_, Finset.Subset.refl _⟩
      have hid : markFold Sentence.mark_safe [] = id := rfl
      cases s
      simp [CState.markAllSafe, hid]
  | cons c cs ih =>
      obtain ⟨S, hS, hsub⟩ := ih (CState.cMarkSafe c s)
      refine ⟨S, ?_, ?_⟩
      · show CState.markAllSafe cs (CState.cMarkSafe c s) = _
        rw [hS]
        simp only [CState.cMarkSafe, List.map_map]
        rfl
      · exact Finset.Subset.trans (Finset.subset_insert c s.safes) hsub

theorem markAllMine_spec (cells : List Cell) (s : CState) :
    ∃ S : Finset Cell, CState.markAllMine cells s =
      ⟨s.safes, S, s.knowledge.map (markFold Sentence.mark_mine cells),
       s.kb.map (markFold Sentence.mark_mine cells), s.aliased⟩ ∧ s.mines ⊆ S := by
  induction cells generalizing s with
  | nil =>
      refine ⟨s.mines, ?_, Finset.Subset.refl _⟩
      have hid : markFold Sentence.mark_mine [] = id := rfl
      cases s
      simp [CState.markAllMine, hid]
  | cons c cs ih =>
      obtain ⟨S, hS, hsub⟩ := ih (CState.cMarkMine c s)
      refine ⟨S, ?_, ?_⟩
      · show CState.markAllMine cs (CState.cMarkMine c s) = _
        rw [hS]
        simp only [CState.cMarkMine, List.map_map]
        rfl
      · exact Finset.Subset.trans (Finset.subset_insert c s.mines) hsub

/-! ### Length bounds for one firing and for `removed` -/

theorem removedGo_length (l acc : List Sentence) :
    (removedGo acc l).length ≤ acc.length + l.length := by
  induction l generalizing acc with
  | nil => simp [removedGo]
  | cons s rest ih =>
      show (removedGo (if s ∈ acc ∨ s = emptyS then acc else acc ++ [s]) rest).length ≤ _
      have h := ih (if s ∈ acc ∨ s = emptyS then acc else acc ++ [s])
      have hlen : (if s ∈ acc ∨ s = emptyS then acc else acc ++ [s]).length ≤ acc.length + 1 := by
        split <;> simp
      simp only [List.length_cons]
      omega

theorem removedFn_length (l : List Sentence) : (removedFn l).length ≤ l.length := by
  simpa using removedGo_length l []

theorem fireStep_kb_length {safe : Bool} {k : Sentence} {s : CState} (hk : k ∈ s.kb)
    (hfire : if safe then k.fireSafes else k.fireMines) :
    (fireStep safe k s).kb.length < s.kb.length := by
  have hmain : ∃ kb1 : List Sentence, kb1.length = s.kb.length ∧ emptyS ∈ kb1 ∧
      (fireStep safe k s).kb = removedFn (kb1.erase emptyS) := by
    cases safe with
    | true =>
        obtain ⟨S, hS, -⟩ := markAllSafe_spec (cellsList k.cells) s
        refine ⟨s.kb.map (markFold Sentence.mark_safe (cellsList k.cells)), by simp, ?_, ?_⟩
        · rw [← markFold_safe_self k hfire]
          exact List.mem_map_of_mem _ hk
        · show ((CState.cErase emptyS (CState.markAllSafe (cellsList k.cells) s)).cRebind).kb = _
          rw [hS]
          rfl
    | false =>
        obtain ⟨S, hS, -⟩ := markAllMine_spec (cellsList k.cells) s
        refine ⟨s.kb.map (markFold Sentence.mark_mine (cellsList k.cells)), by simp, ?_, ?_⟩
        · rw [← markFold_mine_self k hfire]
          exact List.mem_map_of_mem _ hk
        · show ((CState.cErase emptyS (CState.markAllMine (cellsList k.cells) s)).cRebind).kb = _
          rw [hS]
          rfl
  obtain ⟨kb1, hlen, hmem, heq⟩ := hmain
  rw [heq]
  have h1 : (kb1.erase emptyS).length = kb1.length - 1 := List.length_erase_of_mem hmem
  have h2 : 0 < kb1.length := List.length_pos_of_mem hmem
  have h3 := removedFn_length (kb1.erase emptyS)
  omega

/-! ### Behaviour of one `for` pass of `conclude` -/

theorem fireSafes_emptyS : ¬ Sentence.fireSafes emptyS := by decide

theorem fireMines_emptyS : ¬ Sentence.fireMines emptyS := by decide

/-- A pass that runs to the end either leaves the state untouched (and then
the loop variable ends on the last element), or it removed at least one
empty sentence and the local `KB` got strictly shorter. -/
theorem concludeForAux_done (fuel : ℕ) :
    ∀ (s : CState) (i : ℕ) (last : Option Sentence) (s' : CState) (last' : Option Sentence),
      s.kb.length ≤ fuel + i →
      concludeForAux fuel s i last = .done s' last' →
      (s' = s ∧ last' = (if i < s.kb.length then s.kb.getLast? else last)) ∨
        s'.kb.length < s.kb.length := by
  induction fuel with
  | zero =>
      intro s i last s' last' hfuel h
      have hs : s' = s ∧ last' = last := by
        unfold concludeForAux at h
        exact ⟨(PassResult.done.injEq _ _ _ _).mp h |>.1.symm,
               (PassResult.done.injEq _ _ _ _).mp h |>.2.symm⟩
      left
      refine ⟨hs.1, ?_⟩
      rw [if_neg (by omega), hs.2]
  | succ fuel ih =>
      intro s i last s' last' hfuel h
      unfold concludeForAux at h
      cases hget : s.kb.get? i with
      | none =>
          rw [hget] at h
          simp only at h
          left
          have hi : ¬ i < s.kb.length := by
            have := List.get?_eq_none.mp hget
            omega
          refine ⟨((PassResult.done.injEq _ _ _ _).mp h).1.symm, ?_⟩
          rw [if_neg hi, ((PassResult.done.injEq _ _ _ _).mp h).2.symm]
      | some k =>
          rw [hget] at h
          simp only at h
          have hi : i < s.kb.length := by
            by_contra hc
            rw [List.get?_eq_none.mpr (by omega)] at hget
            exact Option.noConfusion hget
          by_cases hke : k = emptyS
          · subst hke
            rw [if_pos rfl, if_neg fireSafes_emptyS, if_neg fireMines_emptyS] at h
            have hmem : emptyS ∈ s.kb := List.get?_mem hget
            have hlen : (CState.cErase emptyS s).kb.length = s.kb.length - 1 := by
              show (s.kb.erase emptyS).length = _
              exact List.length_erase_of_mem hmem
            have hpos : 0 < s.kb.length := List.length_pos_of_mem hmem
            have := ih (CState.cErase emptyS s) (i + 1) (some emptyS) s' last'
              (by rw [hlen]; omega) h
            right
            rcases this with ⟨he, -⟩ | hlt
            · rw [he, hlen]; omega
            · rw [hlen] at hlt; omega
          · rw [if_neg hke] at h
            by_cases hfs : k.fireSafes
            · rw [if_pos hfs] at h
              exact absurd h (by simp)
            · rw [if_neg hfs] at h
              by_cases hfm : k.fireMines
              · rw [if_pos hfm] at h
                exact absurd h (by simp)
              · rw [if_neg hfm] at h
                rcases ih s (i + 1) (some k) s' last' (by omega) h with ⟨he, hl⟩ | hlt
                · left
                  refine ⟨he, ?_⟩
                  rw [if_pos hi]
                  by_cases hi1 : i + 1 < s.kb.length
                  · rw [if_pos hi1] at hl
                    exact hl
                  · rw [if_neg hi1] at hl
                    rw [hl, List.getLast?_eq_getElem?, ← List.get?_eq_getElem?,
                      show s.kb.length - 1 = i by omega, hget]
                · right; exact hlt

/-- A pass that fires strictly shrinks the local `KB`. -/
theorem concludeForAux_fired (fuel : ℕ) :
    ∀ (s : CState) (i : ℕ) (last : Option Sentence) (s' : CState),
      s.kb.length ≤ fuel + i →
      concludeForAux fuel s i last = .fired s' →
      s'.kb.length < s.kb.length := by
  induction fuel with
  | zero =>
      intro s i last s' hfuel h
      unfold concludeForAux at h
      exact absurd h (by simp)
  | succ fuel ih =>
      intro s i last s' hfuel h
      unfold concludeForAux at h
      cases hget : s.kb.get? i with
      | none =>
          rw [hget] at h
          simp only at h
          exact absurd h (by simp)
      | some k =>
          rw [hget] at h
          simp only at h
          by_cases hke : k = emptyS
          · subst hke
            rw [if_pos rfl, if_neg fireSafes_emptyS, if_neg fireMines_emptyS] at h
            have hmem : emptyS ∈ s.kb := List.get?_mem hget
            have hlen : (CState.cErase emptyS s).kb.length = s.kb.length - 1 := by
              show (s.kb.erase emptyS).length = _
              exact List.length_erase_of_mem hmem
            have hpos : 0 < s.kb.length := List.length_pos_of_mem hmem
            have := ih (CState.cErase emptyS s) (i + 1) (some emptyS) s'
              (by rw [hlen]; omega) h
            omega
          · rw [if_neg hke] at h
            have hmem : k ∈ s.kb := List.get?_mem hget
            by_cases hfs : k.fireSafes
            · rw [if_pos hfs] at h
              have hs' : s' = fireStep true k s := by
                have := (PassResult.fired.injEq _ _).mp h
                exact this.symm
              rw [hs']
              exact fireStep_kb_length hmem (by simpa using hfs)
            · rw [if_neg hfs] at h
              by_cases hfm : k.fireMines
              · rw [if_pos hfm] at h
                have hs' : s' = fireStep false k s := by
                  have := (PassResult.fired.injEq _ _).mp h
                  exact this.symm
                rw [hs']
                exact fireStep_kb_length hmem (by simpa using hfm)
              · rw [if_neg hfm] at h
                exact ih s (i + 1) (some k) s' (by omega) h

/-! ### Termination of the `while True` loop -/

/-- Once the fuel reaches `|KB| + 1`, extra fuel changes nothing: the loop
has already returned. -/
theorem concludeLoop_stable (n : ℕ) :
    ∀ (s : CState) (fuel : ℕ), s.kb.length < n → s.kb.length + 1 ≤ fuel →
      concludeLoop fuel s = concludeLoop (s.kb.length + 1) s := by
  induction n with
  | zero => intro s fuel h; omega
  | succ n ih =>
      intro s fuel hn hfuel
      obtain ⟨f, rfl⟩ : ∃ f, fuel = f + 1 := ⟨fuel - 1, by omega⟩
      obtain ⟨m, hm⟩ : ∃ m, s.kb.length + 1 = m + 1 := ⟨s.kb.length, rfl⟩
      rw [hm]
      rw [concludeLoop, concludeLoop]
      cases hpass : concludeForAux s.kb.length s 0 none with
      | fired s' =>
          dsimp only
          have hlt : s'.kb.length < s.kb.length :=
            concludeForAux_fired _ s 0 none s' (by omega) hpass
          by_cases hstop : whileStop (some emptyS) s'.kb = true
          · rw [if_pos hstop, if_pos hstop]
          · rw [if_neg hstop, if_neg hstop]
            rw [ih s' f (by omega) (by omega), ih s' m (by omega) (by omega)]
      | done s' last =>
          dsimp only
          rcases concludeForAux_done _ s 0 none s' last (by omega) hpass with ⟨he, hl⟩ | hlt
          · have hstop : whileStop last s'.kb = true := by
              rw [he]
              unfold whileStop
              cases hkb : s.kb.getLast? with
              | none => rfl
              | some v =>
                  have hne : s.kb ≠ [] := fun hnil => by
                    rw [hnil] at hkb
                    exact Option.noConfusion hkb
                  have hpos : 0 < s.kb.length := List.length_pos.mpr hne
                  rw [if_pos hpos] at hl
                  rw [hl, hkb]
                  simp
            rw [if_pos hstop, if_pos hstop]
          · by_cases hstop : whileStop last s'.kb = true
            · rw [if_pos hstop, if_pos hstop]
            · rw [if_neg hstop, if_neg hstop]
              rw [ih s' f (by omega) (by omega), ih s' m (by omega) (by omega)]

/-- C3: the closure loop of `add_knowledge` terminates: running it with the
bound claimed by the specification — grid size (8×8 = 64) times the number
of live sentences — already yields the final state, and any larger fuel
gives the same answer.  (The proof actually shows the loop settles within
`|KB| + 1` rounds: every round that does not return removes at least one
sentence from the local `KB`.) -/
theorem ai_c3_conclude_terminates (s : CState) (fuel : ℕ) (h1 : 1 ≤ s.kb.length)
    (h2 : 64 * s.kb.length ≤ fuel) :
    concludeLoop fuel s = concludeLoop (64 * s.kb.length) s := by
  rw [concludeLoop_stable (s.kb.length + 1) s fuel (by omega) (by omega),
    concludeLoop_stable (s.kb.length + 1) s (64 * s.kb.length) (by omega) (by omega)]

/-- Witness for `ai_c3_conclude_terminates` on a one-sentence knowledge
base. -/
theorem ai_c3_conclude_terminates_witness :
    1 ≤ (CState.mk ∅ ∅ [⟨{(0,0),(0,1)}, 1⟩] [⟨{(0,0),(0,1)}, 1⟩] true).kb.length ∧
    concludeLoop 100 (CState.mk ∅ ∅ [⟨{(0,0),(0,1)}, 1⟩] [⟨{(0,0),(0,1)}, 1⟩] true) =
      concludeLoop (64 * (CState.mk ∅ ∅ [⟨{(0,0),(0,1)}, 1⟩] [⟨{(0,0),(0,1)}, 1⟩] true).kb.length)
        (CState.mk ∅ ∅ [⟨{(0,0),(0,1)}, 1⟩] [⟨{(0,0),(0,1)}, 1⟩] true) :=
  ⟨by decide,
   ai_c3_conclude_terminates (CState.mk ∅ ∅ [⟨{(0,0),(0,1)}, 1⟩] [⟨{(0,0),(0,1)}, 1⟩] true)
     100 (by decide) (by decide)⟩

/-! ### Monotonicity of the marked sets -/

theorem fireStep_mono (safe : Bool) (k : Sentence) (s : CState) :
    s.safes ⊆ (fireStep safe k s).safes ∧ s.mines ⊆ (fireStep safe k s).mines := by
  cases safe with
  | true =>
      obtain ⟨S, hS, hsub⟩ := markAllSafe_spec (cellsList k.cells) s
      have h1 : (fireStep true k s).safes = (CState.markAllSafe (cellsList k.cells) s).safes :=
        rfl
      have h2 : (fireStep true k s).mines = (CState.markAllSafe (cellsList k.cells) s).mines :=
        rfl
      rw [h1, h2, hS]
      exact ⟨hsub, Finset.Subset.refl _⟩
  | false =>
      obtain ⟨S, hS, hsub⟩ := markAllMine_spec (cellsList k.cells) s
      have h1 : (fireStep false k s).safes = (CState.markAllMine (cellsList k.cells) s).safes :=
        rfl
      have h2 : (fireStep false k s).mines = (CState.markAllMine (cellsList k.cells) s).mines :=
        rfl
      rw [h1, h2, hS]
      exact ⟨Finset.Subset.refl _, hsub⟩

theorem concludeForAux_mono (fuel : ℕ) :
    ∀ (s : CState) (i : ℕ) (last : Option Sentence),
      s.safes ⊆ (concludeForAux fuel s i last).state.safes ∧
      s.mines ⊆ (concludeForAux fuel s i last).state.mines := by
  induction fuel with
  | zero =>
      intro s i last
      exact ⟨Finset.Subset.refl _, Finset.Subset.refl _⟩
  | succ fuel ih =>
      intro s i last
      rw [concludeForAux]
      cases hget : s.kb.get? i with
      | none => exact ⟨Finset.Subset.refl _, Finset.Subset.refl _⟩
      | some k =>
          dsimp only
          by_cases hke : k = emptyS
          · rw [if_pos hke, if_neg (hke ▸ fireSafes_emptyS), if_neg (hke ▸ fireMines_emptyS)]
            exact ih (CState.cErase emptyS s) (i + 1) (some k)
          · rw [if_neg hke]
            by_cases hfs : k.fireSafes
            · rw [if_pos hfs]
              exact fireStep_mono true k s
            · rw [if_neg hfs]
              by_cases hfm : k.fireMines
              · rw [if_pos hfm]
                exact fireStep_mono false k s
              · rw [if_neg hfm]
                exact ih s (i + 1) (some k)

theorem concludeLoop_mono (fuel : ℕ) :
    ∀ s : CState, s.safes ⊆ (concludeLoop fuel s).safes ∧
      s.mines ⊆ (concludeLoop fuel s).mines := by
  induction fuel with
  | zero => intro s; exact ⟨Finset.Subset.refl _, Finset.Subset.refl _⟩
  | succ fuel ih =>
      intro s
      rw [concludeLoop]
      cases hpass : concludeForAux s.kb.length s 0 none with
      | fired s' =>
          dsimp only
          have hmono := concludeForAux_mono s.kb.length s 0 none
          rw [hpass] at hmono
          by_cases hstop : whileStop (some emptyS) s'.kb = true
          · rw [if_pos hstop]; exact hmono
          · rw [if_neg hstop]
            exact ⟨Finset.Subset.trans hmono.1 (ih s').1,
                   Finset.Subset.trans hmono.2 (ih s').2⟩
      | done s' last =>
          dsimp only
          have hmono := concludeForAux_mono s.kb.length s 0 none
          rw [hpass] at hmono
          by_cases hstop : whileStop last s'.kb = true
          · rw [if_pos hstop]; exact hmono
          · rw [if_neg hstop]
            exact ⟨Finset.Subset.trans hmono.1 (ih s').1,
                   Finset.Subset.trans hmono.2 (ih s').2⟩

/-! ### `add_knowledge`: moves and monotonicity -/

theorem add_knowledge_moves (st : MinesweeperAI) (cell : Cell) (count : ℤ) :
    (add_knowledge st cell count).moves_made = insert cell st.moves_made := rfl

theorem concludeLoop_mono_apply (fuel : ℕ) (a b : Finset Cell) (k1 k2 : List Sentence)
    (al : Bool) :
    a ⊆ (concludeLoop fuel ⟨a, b, k1, k2, al⟩).safes ∧
    b ⊆ (concludeLoop fuel ⟨a, b, k1, k2, al⟩).mines :=
  concludeLoop_mono fuel ⟨a, b, k1, k2, al⟩

theorem add_knowledge_mono (st : MinesweeperAI) (cell : Cell) (count : ℤ) :
    st.safes ⊆ (add_knowledge st cell count).safes ∧
    st.mines ⊆ (add_knowledge st cell count).mines := by
  unfold add_knowledge
  dsimp only
  constructor
  · exact Finset.Subset.trans (Finset.subset_insert cell st.safes)
      (concludeLoop_mono_apply _ _ _ _ _ _).1
  · exact (concludeLoop_mono_apply _ _ _ _ _ _).2

/-- C8 amended: a second identical `record(cell, count)` call leaves
`moves_made` unchanged, and can only enlarge `safes` and `mines` — it is
not a no-op, as `ai_c8_counterexample` shows a second call strictly
enlarging `safes`. -/
theorem ai_c8_moves_and_monotone (st : MinesweeperAI) (cell : Cell) (count : ℤ) :
    (add_knowledge (add_knowledge st cell count) cell count).moves_made =
      (add_knowledge st cell count).moves_made ∧
    (add_knowledge st cell count).safes ⊆
      (add_knowledge (add_knowledge st cell count) cell count).safes ∧
    (add_knowledge st cell count).mines ⊆
      (add_knowledge (add_knowledge st cell count) cell count).mines := by
  refine ⟨?_, (add_knowledge_mono _ cell count).1, (add_knowledge_mono _ cell count).2⟩
  rw [add_knowledge_moves, add_knowledge_moves, Finset.insert_idem]

/-! ### Revealed cells never reappear in any sentence (C9) -/

theorem mark_safe_cells_subset (c : Cell) (t : Sentence) :
    (Sentence.mark_safe c t).cells ⊆ t.cells := by
  rw [mark_safe_eq]
  exact Finset.erase_subset c t.cells

theorem mark_mine_cells_subset (c : Cell) (t : Sentence) :
    (Sentence.mark_mine c t).cells ⊆ t.cells := by
  unfold Sentence.mark_mine
  split
  · exact Finset.erase_subset c t.cells
  · exact Finset.Subset.refl _

theorem markFold_cells_subset (f : Cell → Sentence → Sentence)
    (hf : ∀ c t, (f c t).cells ⊆ t.cells) (l : List Cell) (t : Sentence) :
    (markFold f l t).cells ⊆ t.cells := by
  induction l generalizing t with
  | nil => exact Finset.Subset.refl _
  | cons c cs ih =>
      show (markFold f cs (f c t)).cells ⊆ t.cells
      exact Finset.Subset.trans (ih (f c t)) (hf c t)

theorem avoidList_map (X : Finset Cell) (l : List Sentence)
    (g : Sentence → Sentence) (hg : ∀ t, (g t).cells ⊆ t.cells)
    (h : avoidList X l) : avoidList X (l.map g) := by
  intro s hs x hx hmem
  obtain ⟨t, ht, rfl⟩ := List.mem_map.mp hs
  exact h t ht x hx (hg t hmem)

theorem avoidList_of_sublist {X : Finset Cell} {l l' : List Sentence}
    (hsub : ∀ s ∈ l', s ∈ l) (h : avoidList X l) : avoidList X l' :=
  fun s hs x hx => h s (hsub s hs) x hx

theorem removedGo_mem (l : List Sentence) :
    ∀ (acc : List Sentence) (x : Sentence), x ∈ removedGo acc l → x ∈ acc ∨ x ∈ l := by
  induction l with
  | nil => intro acc x hx; exact Or.inl hx
  | cons s rest ih =>
      intro acc x hx
      rcases ih _ x hx with hacc | hrest
      · by_cases hc : s ∈ acc ∨ s = emptyS
        · rw [if_pos hc] at hacc
          exact Or.inl hacc
        · rw [if_neg hc] at hacc
          rcases List.mem_append.mp hacc with h1 | h1
          · exact Or.inl h1
          · rcases List.mem_singleton.mp h1 with rfl
            exact Or.inr (List.mem_cons_self _ _)
      · exact Or.inr (List.mem_cons_of_mem _ hrest)

theorem removedFn_mem {x : Sentence} {l : List Sentence} (hx : x ∈ removedFn l) : x ∈ l := by
  rcases removedGo_mem l [] x hx with h | h
  · exact absurd h (List.not_mem_nil x)
  · exact h

theorem cErase_knowledge_mem {v t : Sentence} {s : CState}
    (ht : t ∈ (CState.cErase v s).knowledge) : t ∈ s.knowledge := by
  unfold CState.cErase at ht
  dsimp only at ht
  split at ht
  · exact List.mem_of_mem_erase ht
  · exact ht

theorem cErase_kb_mem {v t : Sentence} {s : CState}
    (ht : t ∈ (CState.cErase v s).kb) : t ∈ s.kb :=
  List.mem_of_mem_erase ht

theorem cRebind_kb_mem {t : Sentence} {s : CState}
    (ht : t ∈ (CState.cRebind s).kb) : t ∈ s.kb :=
  removedFn_mem ht

theorem avoidList_fireStep (X : Finset Cell) (safe : Bool) (k : Sentence) (s : CState)
    (h1 : avoidList X s.knowledge) (h2 : avoidList X s.kb) :
    avoidList X (fireStep safe k s).knowledge ∧ avoidList X (fireStep safe k s).kb := by
  have hmarked : avoidList X (if safe then CState.markAllSafe (cellsList k.cells) s
      else CState.markAllMine (cellsList k.cells) s).knowledge ∧
      avoidList X (if safe then CState.markAllSafe (cellsList k.cells) s
      else CState.markAllMine (cellsList k.cells) s).kb := by
    cases safe with
    | true =>
        obtain ⟨S, hS, -⟩ := markAllSafe_spec (cellsList k.cells) s
        rw [if_pos rfl, hS]
        exact ⟨avoidList_map X _ _ (markFold_cells_subset _ mark_safe_cells_subset _) h1,
               avoidList_map X _ _ (markFold_cells_subset _ mark_safe_cells_subset _) h2⟩
    | false =>
        obtain ⟨S, hS, -⟩ := markAllMine_spec (cellsList k.cells) s
        rw [if_neg (by simp), hS]
        exact ⟨avoidList_map X _ _ (markFold_cells_subset _ mark_mine_cells_subset _) h1,
               avoidList_map X _ _ (markFold_cells_subset _ mark_mine_cells_subset _) h2⟩
  exact ⟨avoidList_of_sublist (fun t ht => cErase_knowledge_mem ht) hmarked.1,
         avoidList_of_sublist (fun t ht => cErase_kb_mem (cRebind_kb_mem ht)) hmarked.2⟩

theorem concludeForAux_avoid (X : Finset Cell) (fuel : ℕ) :
    ∀ (s : CState) (i : ℕ) (last : Option Sentence),
      avoidList X s.knowledge → avoidList X s.kb →
      avoidList X (concludeForAux fuel s i last).state.knowledge ∧
      avoidList X (concludeForAux fuel s i last).state.kb := by
  induction fuel with
  | zero => intro s i last h1 h2; exact ⟨h1, h2⟩
  | succ fuel ih =>
      intro s i last h1 h2
      rw [concludeForAux]
      cases hget : s.kb.get? i with
      | none => exact ⟨h1, h2⟩
      | some k =>
          dsimp only
          by_cases hke : k = emptyS
          · rw [if_pos hke, if_neg (hke ▸ fireSafes_emptyS), if_neg (hke ▸ fireMines_emptyS)]
            exact ih (CState.cErase emptyS s) (i + 1) (some k)
              (avoidList_of_sublist (fun t ht => cErase_knowledge_mem ht) h1)
              (avoidList_of_sublist (fun t ht => cErase_kb_mem ht) h2)
          · rw [if_neg hke]
            by_cases hfs : k.fireSafes
            · rw [if_pos hfs]
              exact avoidList_fireStep X true k s h1 h2
            · rw [if_neg hfs]
              by_cases hfm : k.fireMines
              · rw [if_pos hfm]
                exact avoidList_fireStep X false k s h1 h2
              · rw [if_neg hfm]
                exact ih s (i + 1) (some k) h1 h2

theorem concludeLoop_avoid (X : Finset Cell) (fuel : ℕ) :
    ∀ s : CState, avoidList X s.knowledge → avoidList X s.kb →
      avoidList X (concludeLoop fuel s).knowledge ∧ avoidList X (concludeLoop fuel s).kb := by
  induction fuel with
  | zero => intro s h1 h2; exact ⟨h1, h2⟩
  | succ fuel ih =>
      intro s h1 h2
      rw [concludeLoop]
      have hpa := concludeForAux_avoid X s.kb.length s 0 none h1 h2
      cases hpass : concludeForAux s.kb.length s 0 none with
      | fired s' =>
          rw [hpass] at hpa
          dsimp only
          by_cases hstop : whileStop (some emptyS) s'.kb = true
          · rw [if_pos hstop]; exact hpa
          · rw [if_neg hstop]; exact ih s' hpa.1 hpa.2
      | done s' last =>
          rw [hpass] at hpa
          dsimp only
          by_cases hstop : whileStop last s'.kb = true
          · rw [if_pos hstop]; exact hpa
          · rw [if_neg hstop]; exact ih s' hpa.1 hpa.2

/-- Membership in the accumulated inference appends of `add_knowledge`. -/
theorem foldl_append_mem {g : Sentence → List Sentence} (l : List Sentence) :
    ∀ (acc : List Sentence) (x : Sentence),
      x ∈ l.foldl (fun a b => a ++ g b) acc → x ∈ acc ∨ ∃ b ∈ l, x ∈ g b := by
  induction l with
  | nil => intro acc x hx; exact Or.inl hx
  | cons b rest ih =>
      intro acc x hx
      rcases ih _ x hx with hacc | ⟨b', hb', hx'⟩
      · rcases List.mem_append.mp hacc with h1 | h1
        · exact Or.inl h1
        · exact Or.inr ⟨b, List.mem_cons_self _ _, h1⟩
      · exact Or.inr ⟨b', List.mem_cons_of_mem _ hb', hx'⟩

/-- Cells of an inferred sentence come from one of the two parents. -/
theorem inferOne_cells_subset {ki sentence t : Sentence} (ht : t ∈ inferOne ki sentence) :
    t.cells ⊆ ki.cells ∪ sentence.cells := by
  unfold inferOne at ht
  split at ht
  · dsimp only at ht
    split at ht
    · exact absurd ht (List.not_mem_nil t)
    · rcases List.mem_singleton.mp ht with rfl
      exact Finset.Subset.trans (Finset.sdiff_subset) Finset.subset_union_right
  · split at ht
    · dsimp only at ht
      split at ht
      · exact absurd ht (List.not_mem_nil t)
      · rcases List.mem_singleton.mp ht with rfl
        exact Finset.Subset.trans (Finset.sdiff_subset) Finset.subset_union_left
    · exact absurd ht (List.not_mem_nil t)

theorem add_knowledge_know1_avoid (st : MinesweeperAI) (cell : Cell)
    (h : avoidList st.moves_made st.knowledge) :
    avoidList (insert cell st.moves_made) (st.knowledge.map (Sentence.mark_safe cell)) := by
  intro s' hs' x hx
  obtain ⟨t, ht, rfl⟩ := List.mem_map.mp hs'
  rcases Finset.mem_insert.mp hx with rfl | hxm
  · rw [mark_safe_eq]
    exact Finset.not_mem_erase x t.cells
  · intro hmem
    exact h t ht x hxm (mark_safe_cells_subset cell t hmem)

theorem nbhdCells_avoid (moves : Finset Cell) (c : Cell) :
    ∀ x ∈ moves, x ∉ nbhdCells moves c := by
  intro x hx hmem
  exact (Finset.mem_filter.mp hmem).2.2.2.2.1 hx

/-- The whole sentence list assembled by `add_knowledge` before `conclude`
mentions no revealed cell. -/
theorem add_knowledge_know2_avoid (st : MinesweeperAI) (cell : Cell) (count : ℤ)
    (h : avoidList st.moves_made st.knowledge) :
    avoidList (insert cell st.moves_made)
      (if (⟨nbhdCells (insert cell st.moves_made) cell, count⟩ : Sentence) ∈
          st.knowledge.map (Sentence.mark_safe cell)
       then st.knowledge.map (Sentence.mark_safe cell)
       else (st.knowledge.map (Sentence.mark_safe cell) ++
              [(⟨nbhdCells (insert cell st.moves_made) cell, count⟩ : Sentence)]) ++
            (st.knowledge.map (Sentence.mark_safe cell)).foldl
              (fun acc ki => acc ++ inferOne ki
                ⟨nbhdCells (insert cell st.moves_made) cell, count⟩) []) := by
  have hknow1 := add_knowledge_know1_avoid st cell h
  split
  · exact hknow1
  · intro t ht x hx
    rcases List.mem_append.mp ht with ht1 | ht2
    · rcases List.mem_append.mp ht1 with ht1a | ht1b
      · exact hknow1 t ht1a x hx
      · rcases List.mem_singleton.mp ht1b with rfl
        exact nbhdCells_avoid _ cell x hx
    · rcases foldl_append_mem _ _ t ht2 with hnil | ⟨ki, hki, htinf⟩
      · exact absurd hnil (List.not_mem_nil t)
      · intro hmem
        rcases Finset.mem_union.mp (inferOne_cells_subset htinf hmem) with hk | hsent
        · exact hknow1 ki hki x hx hk
        · exact nbhdCells_avoid _ cell x hx hsent

theorem add_knowledge_avoid (st : MinesweeperAI) (cell : Cell) (count : ℤ)
    (h : avoidList st.moves_made st.knowledge) :
    avoidList (insert cell st.moves_made) (add_knowledge st cell count).knowledge := by
  unfold add_knowledge
  dsimp only
  refine avoidList_of_sublist (fun t ht => removedFn_mem ht) ?_
  exact (concludeLoop_avoid _ _ _ (add_knowledge_know2_avoid st cell count h)
    (add_knowledge_know2_avoid st cell count h)).1

/-- C9: after every `add_knowledge` call (from any sequence of calls), no
live sentence mentions any revealed cell: the fresh sentence's filter
excludes `moves_made`, `mark_safe` strips the newly revealed cell from
every older sentence, and all later operations only shrink cell sets. -/
theorem ai_c9_no_moves_in_sentences (st : MinesweeperAI) (h : ReachableAI st) :
    ∀ s ∈ st.knowledge, ∀ m ∈ st.moves_made, m ∉ s.cells := by
  have hmain : avoidList st.moves_made st.knowledge := by
    induction h with
    | init h w => intro s hs; exact absurd hs (List.not_mem_nil s)
    | step cell count hst ih =>
        rw [add_knowledge_moves]
        exact add_knowledge_avoid _ cell count ih
  exact hmain

/-- Witness for `ai_c9_no_moves_in_sentences` on a concrete two-call run. -/
theorem ai_c9_no_moves_in_sentences_witness :
    (⟨{(3,3),(3,4),(3,5),(4,3),(5,3),(5,4),(5,5)}, 2⟩ : Sentence) ∈
      (add_knowledge (add_knowledge (initAI 8 8) (4,4) 2) (4,5) 1).knowledge ∧
    (4,4) ∈ (add_knowledge (add_knowledge (initAI 8 8) (4,4) 2) (4,5) 1).moves_made ∧
    (4,4) ∉ (⟨({(3,3),(3,4),(3,5),(4,3),(5,3),(5,4),(5,5)} : Finset Cell), 2⟩ :
      Sentence).cells :=
  ⟨by decide, by decide,
    ai_c9_no_moves_in_sentences _
      (ReachableAI.step (4,5) 1 (ReachableAI.step (4,4) 2 (ReachableAI.init 8 8)))
      ⟨{(3,3),(3,4),(3,5),(4,3),(5,3),(5,4),(5,5)}, 2⟩ (by decide) (4,4) (by decide)⟩

/-! ### Sentence truth is preserved by every operation (C4/C6) -/

theorem markAllSafe_full (cells : List Cell) (s : CState) :
    CState.markAllSafe cells s =
      ⟨s.safes ∪ cells.toFinset, s.mines,
       s.knowledge.map (markFold Sentence.mark_safe cells),
       s.kb.map (markFold Sentence.mark_safe cells), s.aliased⟩ := by
  induction cells generalizing s with
  | nil =>
      have hid : markFold Sentence.mark_safe [] = id := rfl
      cases s
      simp [CState.markAllSafe, hid]
  | cons c cs ih =>
      show CState.markAllSafe cs (CState.cMarkSafe c s) = _
      rw [ih]
      simp only [CState.cMarkSafe, List.map_map]
      congr 1
      ext x
      simp only [Finset.mem_union, Finset.mem_insert, List.toFinset_cons, List.mem_toFinset]
      tauto

theorem markAllMine_full (cells : List Cell) (s : CState) :
    CState.markAllMine cells s =
      ⟨s.safes, s.mines ∪ cells.toFinset,
       s.knowledge.map (markFold Sentence.mark_mine cells),
       s.kb.map (markFold Sentence.mark_mine cells), s.aliased⟩ := by
  induction cells generalizing s with
  | nil =>
      have hid : markFold Sentence.mark_mine [] = id := rfl
      cases s
      simp [CState.markAllMine, hid]
  | cons c cs ih =>
      show CState.markAllMine cs (CState.cMarkMine c s) = _
      rw [ih]
      simp only [CState.cMarkMine, List.map_map]
      congr 1
      ext x
      simp only [Finset.mem_union, Finset.mem_insert, List.toFinset_cons, List.mem_toFinset]
      tauto

theorem TrueS_mark_safe {M : Finset Cell} {c : Cell} {t : Sentence}
    (hc : c ∉ M) (h : TrueS M t) : TrueS M (Sentence.mark_safe c t) := by
  unfold TrueS at h ⊢
  rw [mark_safe_eq]
  have hset : t.cells.erase c ∩ M = t.cells ∩ M := by
    ext x
    simp only [Finset.mem_inter, Finset.mem_erase]
    constructor
    · rintro ⟨⟨-, hx⟩, hm⟩
      exact ⟨hx, hm⟩
    · rintro ⟨hx, hm⟩
      exact ⟨⟨fun he => hc (he ▸ hm), hx⟩, hm⟩
  show ((t.cells.erase c ∩ M).card : ℤ) = t.count
  rw [hset, h]

theorem TrueS_mark_mine {M : Finset Cell} {c : Cell} {t : Sentence}
    (hc : c ∈ M) (h : TrueS M t) : TrueS M (Sentence.mark_mine c t) := by
  unfold TrueS at h ⊢
  unfold Sentence.mark_mine
  split
  · rename_i hmem
    have hset : t.cells.erase c ∩ M = (t.cells ∩ M).erase c := by
      ext x
      simp only [Finset.mem_inter, Finset.mem_erase]
      tauto
    have hcm : c ∈ t.cells ∩ M := Finset.mem_inter.mpr ⟨hmem, hc⟩
    have hpos : 1 ≤ (t.cells ∩ M).card := Finset.card_pos.mpr ⟨c, hcm⟩
    show ((t.cells.erase c ∩ M).card : ℤ) = t.count - 1
    rw [hset, Finset.card_erase_of_mem hcm, Nat.cast_sub hpos, h]
    simp
  · exact h

theorem TrueS_markFold_safe {M : Finset Cell} {l : List Cell} {t : Sentence}
    (hl : ∀ c ∈ l, c ∉ M) (h : TrueS M t) :
    TrueS M (markFold Sentence.mark_safe l t) := by
  induction l generalizing t with
  | nil => exact h
  | cons c cs ih =>
      show TrueS M (markFold Sentence.mark_safe cs (Sentence.mark_safe c t))
      exact ih (fun d hd => hl d (List.mem_cons_of_mem c hd))
        (TrueS_mark_safe (hl c (List.mem_cons_self c cs)) h)

theorem TrueS_markFold_mine {M : Finset Cell} {l : List Cell} {t : Sentence}
    (hl : ∀ c ∈ l, c ∈ M) (h : TrueS M t) :
    TrueS M (markFold Sentence.mark_mine l t) := by
  induction l generalizing t with
  | nil => exact h
  | cons c cs ih =>
      show TrueS M (markFold Sentence.mark_mine cs (Sentence.mark_mine c t))
      exact ih (fun d hd => hl d (List.mem_cons_of_mem c hd))
        (TrueS_mark_mine (hl c (List.mem_cons_self c cs)) h)

/-- A firing sentence with count 0 really has no mine among its cells. -/
theorem fireSafes_no_mines {M : Finset Cell} {k : Sentence}
    (hk : TrueS M k) (hf : k.fireSafes) : ∀ c ∈ k.cells, c ∉ M := by
  intro c hc hcM
  have h0 : ((k.cells ∩ M).card : ℤ) = 0 := by rw [hk, hf.1]
  have : k.cells ∩ M = ∅ := Finset.card_eq_zero.mp (by exact_mod_cast h0)
  have := Finset.eq_empty_iff_forall_not_mem.mp this c
  exact this (Finset.mem_inter.mpr ⟨hc, hcM⟩)

/-- A firing sentence with full count really is all mines. -/
theorem fireMines_all_mines {M : Finset Cell} {k : Sentence}
    (hk : TrueS M k) (hf : k.fireMines) : ∀ c ∈ k.cells, c ∈ M := by
  have hcard : (k.cells ∩ M).card = k.cells.card := by
    have := hk.trans hf.1.symm
    exact_mod_cast this
  have hsub : k.cells ⊆ M := by
    have heq : k.cells ∩ M = k.cells :=
      Finset.eq_of_subset_of_card_le Finset.inter_subset_left (le_of_eq hcard.symm)
    intro c hc
    have : c ∈ k.cells ∩ M := heq.symm ▸ hc
    exact (Finset.mem_inter.mp this).2
  exact fun c hc => hsub hc

/-! ### `CInv` is preserved through `conclude` -/

theorem CInv_cErase {M : Finset Cell} {v : Sentence} {s : CState}
    (h : CInv M s) : CInv M (CState.cErase v s) :=
  ⟨fun t ht => h.1 t (cErase_knowledge_mem ht),
   fun t ht => h.2.1 t (cErase_kb_mem ht),
   h.2.2.1, h.2.2.2⟩

theorem CInv_fireStep_safe {M : Finset Cell} {k : Sentence} {s : CState}
    (h : CInv M s) (hk : TrueS M k) (hf : k.fireSafes) :
    CInv M (fireStep true k s) := by
  have hcells : ∀ c ∈ cellsList k.cells, c ∉ M :=
    fun c hc => fireSafes_no_mines hk hf c (mem_cellsList.mp hc)
  have hmarkinv : CInv M (CState.markAllSafe (cellsList k.cells) s) := by
    rw [markAllSafe_full]
    refine ⟨?_, ?_, ?_, h.2.2.2⟩
    · intro t ht
      obtain ⟨u, hu, rfl⟩ := List.mem_map.mp ht
      exact TrueS_markFold_safe hcells (h.1 u hu)
    · intro t ht
      obtain ⟨u, hu, rfl⟩ := List.mem_map.mp ht
      exact TrueS_markFold_safe hcells (h.2.1 u hu)
    · show (s.safes ∪ (cellsList k.cells).toFinset) ∩ M = ∅
      rw [Finset.union_inter_distrib_right, h.2.2.1, cellsList_toFinset]
      have : k.cells ∩ M = ∅ := by
        apply Finset.eq_empty_iff_forall_not_mem.mpr
        intro c hc
        exact fireSafes_no_mines hk hf c (Finset.mem_inter.mp hc).1 (Finset.mem_inter.mp hc).2
      rw [this, Finset.empty_union]
  have h1 := CInv_cErase (v := emptyS) hmarkinv
  exact ⟨h1.1, fun t ht => h1.2.1 t (removedFn_mem ht), h1.2.2.1, h1.2.2.2⟩

theorem CInv_fireStep_mine {M : Finset Cell} {k : Sentence} {s : CState}
    (h : CInv M s) (hk : TrueS M k) (hf : k.fireMines) :
    CInv M (fireStep false k s) := by
  have hcells : ∀ c ∈ cellsList k.cells, c ∈ M :=
    fun c hc => fireMines_all_mines hk hf c (mem_cellsList.mp hc)
  have hmarkinv : CInv M (CState.markAllMine (cellsList k.cells) s) := by
    rw [markAllMine_full]
    refine ⟨?_, ?_, h.2.2.1, ?_⟩
    · intro t ht
      obtain ⟨u, hu, rfl⟩ := List.mem_map.mp ht
      exact TrueS_markFold_mine hcells (h.1 u hu)
    · intro t ht
      obtain ⟨u, hu, rfl⟩ := List.mem_map.mp ht
      exact TrueS_markFold_mine hcells (h.2.1 u hu)
    · show s.mines ∪ (cellsList k.cells).toFinset ⊆ M
      refine Finset.union_subset h.2.2.2 ?_
      rw [cellsList_toFinset]
      exact fun c hc => fireMines_all_mines hk hf c hc
  have h1 := CInv_cErase (v := emptyS) hmarkinv
  exact ⟨h1.1, fun t ht => h1.2.1 t (removedFn_mem ht), h1.2.2.1, h1.2.2.2⟩

theorem CInv_concludeForAux (M : Finset Cell) (fuel : ℕ) :
    ∀ (s : CState) (i : ℕ) (last : Option Sentence),
      CInv M s → CInv M (concludeForAux fuel s i last).state := by
  induction fuel with
  | zero => intro s i last h; exact h
  | succ fuel ih =>
      intro s i last h
      rw [concludeForAux]
      cases hget : s.kb.get? i with
      | none => exact h
      | some k =>
          dsimp only
          have hkmem : k ∈ s.kb := List.get?_mem hget
          have hktrue : TrueS M k := h.2.1 k hkmem
          by_cases hke : k = emptyS
          · rw [if_pos hke, if_neg (hke ▸ fireSafes_emptyS), if_neg (hke ▸ fireMines_emptyS)]
            exact ih (CState.cErase emptyS s) (i + 1) (some k) (CInv_cErase h)
          · rw [if_neg hke]
            by_cases hfs : k.fireSafes
            · rw [if_pos hfs]
              exact CInv_fireStep_safe h hktrue hfs
            · rw [if_neg hfs]
              by_cases hfm : k.fireMines
              · rw [if_pos hfm]
                exact CInv_fireStep_mine h hktrue hfm
              · rw [if_neg hfm]
                exact ih s (i + 1) (some k) h

theorem CInv_concludeLoop (M : Finset Cell) (fuel : ℕ) :
    ∀ s : CState, CInv M s → CInv M (concludeLoop fuel s) := by
  induction fuel with
  | zero => intro s h; exact h
  | succ fuel ih =>
      intro s h
      rw [concludeLoop]
      have hpa := CInv_concludeForAux M s.kb.length s 0 none h
      cases hpass : concludeForAux s.kb.length s 0 none with
      | fired s' =>
          rw [hpass] at hpa
          dsimp only
          by_cases hstop : whileStop (some emptyS) s'.kb = true
          · rw [if_pos hstop]; exact hpa
          · rw [if_neg hstop]; exact ih s' hpa
      | done s' last =>
          rw [hpass] at hpa
          dsimp only
          by_cases hstop : whileStop last s'.kb = true
          · rw [if_pos hstop]; exact hpa
          · rw [if_neg hstop]; exact ih s' hpa

/-! ### Truth of the freshly built and inferred sentences -/

/-- With the configured dimensions inside the hardcoded bound, the cells
the AI keeps in its new sentence carry exactly the mines that
`nearby_mines` counted: out-of-bound phantom cells are never mines, mines
are never revealed. -/
theorem nbhd_inter_M (h w : ℤ) (M moves : Finset Cell) (c : Cell)
    (hh : h ≤ 8) (hw : w ≤ 8) (hM : M ⊆ gridCells h w) (hmoves : moves ∩ M = ∅) :
    ((nbhdCells moves c ∩ M).card : ℤ) = nearbyMines h w M c := by
  have hset : nbhdCells moves c ∩ M =
      (cube c).filter fun p =>
        ¬(p.1 = c.1 ∧ p.2 = c.2) ∧ 0 ≤ p.1 ∧ p.1 < h ∧ 0 ≤ p.2 ∧ p.2 < w ∧ p ∈ M := by
    ext x
    simp only [Finset.mem_inter, nbhdCells, Finset.mem_filter]
    constructor
    · rintro ⟨⟨hcube, hne, h1, h2, hmv, h3, h4⟩, hxM⟩
      have hgrid := hM hxM
      have hx1 := (Finset.mem_Icc.mp (Finset.mem_product.mp hgrid).1)
      have hx2 := (Finset.mem_Icc.mp (Finset.mem_product.mp hgrid).2)
      exact ⟨hcube, hne, by omega, by omega, by omega, by omega, hxM⟩
    · rintro ⟨hcube, hne, h1, h2, h3, h4, hxM⟩
      have hgrid := hM hxM
      have hx1 := (Finset.mem_Icc.mp (Finset.mem_product.mp hgrid).1)
      have hx2 := (Finset.mem_Icc.mp (Finset.mem_product.mp hgrid).2)
      have hmv : x ∉ moves := by
        intro hxmv
        have : x ∈ moves ∩ M := Finset.mem_inter.mpr ⟨hxmv, hxM⟩
        rw [hmoves] at this
        exact Finset.not_mem_empty x this
      exact ⟨⟨hcube, hne, by omega, by omega, hmv, by omega, by omega⟩, hxM⟩
  rw [hset]
  rfl

/-- Both subset-difference inferences of `add_knowledge` produce true
sentences from true sentences. -/
theorem TrueS_inferOne {M : Finset Cell} {ki sentence : Sentence}
    (h1 : TrueS M ki) (h2 : TrueS M sentence) :
    ∀ t ∈ inferOne ki sentence, TrueS M t := by
  have key : ∀ A B : Sentence, TrueS M A → TrueS M B → A.cells ⊆ B.cells →
      TrueS M ⟨B.cells \ A.cells, B.count - A.count⟩ := by
    intro A B hA hB hsub
    unfold TrueS at hA hB ⊢
    have hset : (B.cells \ A.cells) ∩ M = (B.cells ∩ M) \ (A.cells ∩ M) := by
      ext x
      simp only [Finset.mem_inter, Finset.mem_sdiff]
      constructor
      · rintro ⟨⟨hb, ha⟩, hm⟩
        exact ⟨⟨hb, hm⟩, fun hc => ha hc.1⟩
      · rintro ⟨⟨hb, hm⟩, ha⟩
        exact ⟨⟨hb, fun hc => ha ⟨hc, hm⟩⟩, hm⟩
    have hsub' : A.cells ∩ M ⊆ B.cells ∩ M :=
      Finset.inter_subset_inter hsub (Finset.Subset.refl M)
    show (((B.cells \ A.cells) ∩ M).card : ℤ) = B.count - A.count
    rw [hset, Finset.card_sdiff hsub', Nat.cast_sub (Finset.card_le_card hsub'), hA, hB]
  intro t ht
  unfold inferOne at ht
  split at ht
  · rename_i hsub
    dsimp only at ht
    split at ht
    · exact absurd ht (List.not_mem_nil t)
    · rcases List.mem_singleton.mp ht with rfl
      exact key ki sentence h1 h2 hsub
  · split at ht
    · rename_i hsub
      dsimp only at ht
      split at ht
      · exact absurd ht (List.not_mem_nil t)
      · rcases List.mem_singleton.mp ht with rfl
        exact key sentence ki h2 h1 hsub
    · exact absurd ht (List.not_mem_nil t)

/-- Every sentence of the list assembled by `add_knowledge` before
`conclude` is true of the mine set, given board-consistent input. -/
theorem add_knowledge_know2_true (h w : ℤ) (M : Finset Cell) (st : MinesweeperAI)
    (cell : Cell) (hh : h ≤ 8) (hw : w ≤ 8) (hM : M ⊆ gridCells h w) (hcell : cell ∉ M)
    (hknow : ∀ s ∈ st.knowledge, TrueS M s) (hmoves : st.moves_made ∩ M = ∅) :
    ∀ s ∈ (if (⟨nbhdCells (insert cell st.moves_made) cell,
              nearbyMines h w M cell⟩ : Sentence) ∈
          st.knowledge.map (Sentence.mark_safe cell)
       then st.knowledge.map (Sentence.mark_safe cell)
       else (st.knowledge.map (Sentence.mark_safe cell) ++
              [(⟨nbhdCells (insert cell st.moves_made) cell,
                 nearbyMines h w M cell⟩ : Sentence)]) ++
            (st.knowledge.map (Sentence.mark_safe cell)).foldl
              (fun acc ki => acc ++ inferOne ki
                ⟨nbhdCells (insert cell st.moves_made) cell,
                 nearbyMines h w M cell⟩) []), TrueS M s := by
  have hknow1 : ∀ s ∈ st.knowledge.map (Sentence.mark_safe cell), TrueS M s := by
    intro s hs
    obtain ⟨t, ht, rfl⟩ := List.mem_map.mp hs
    exact TrueS_mark_safe hcell (hknow t ht)
  have hmoves' : insert cell st.moves_made ∩ M = ∅ := by
    apply Finset.eq_empty_iff_forall_not_mem.mpr
    intro x hx
    rcases Finset.mem_insert.mp (Finset.mem_inter.mp hx).1 with rfl | hxm
    · exact hcell (Finset.mem_inter.mp hx).2
    · have : x ∈ st.moves_made ∩ M :=
        Finset.mem_inter.mpr ⟨hxm, (Finset.mem_inter.mp hx).2⟩
      rw [hmoves] at this
      exact Finset.not_mem_empty x this
  have hsent : TrueS M (⟨nbhdCells (insert cell st.moves_made) cell,
      nearbyMines h w M cell⟩ : Sentence) :=
    nbhd_inter_M h w M (insert cell st.moves_made) cell hh hw hM hmoves'
  split
  · exact hknow1
  · intro t ht
    rcases List.mem_append.mp ht with ht1 | ht2
    · rcases List.mem_append.mp ht1 with ht1a | ht1b
      · exact hknow1 t ht1a
      · rcases List.mem_singleton.mp ht1b with rfl
        exact hsent
    · rcases foldl_append_mem _ _ t ht2 with hnil | ⟨ki, hki, htinf⟩
      · exact absurd hnil (List.not_mem_nil t)
      · exact TrueS_inferOne (hknow1 ki hki) hsent t htinf

/-- Assembling the final AI state out of a `conclude` run started from a
list of true sentences keeps the soundness invariant. -/
theorem AIInv_assemble (M : Finset Cell) (st : MinesweeperAI) (cell : Cell)
    (K : List Sentence) (hK : ∀ s ∈ K, TrueS M s)
    (hsafes : insert cell st.safes ∩ M = ∅)
    (hmines : st.mines ⊆ M)
    (hmoves : insert cell st.moves_made ∩ M = ∅) :
    AIInv M { height := st.height, width := st.width,
              moves_made := insert cell st.moves_made,
              mines := (concludeLoop (K.length + 1)
                ⟨insert cell st.safes, st.mines, K, K, true⟩).mines,
              safes := (concludeLoop (K.length + 1)
                ⟨insert cell st.safes, st.mines, K, K, true⟩).safes,
              knowledge := removedFn (concludeLoop (K.length + 1)
                ⟨insert cell st.safes, st.mines, K, K, true⟩).knowledge } := by
  have hc : CInv M (concludeLoop (K.length + 1)
      ⟨insert cell st.safes, st.mines, K, K, true⟩) := by
    refine CInv_concludeLoop M _ _ ?_
    show (∀ s ∈ K, TrueS M s) ∧ (∀ s ∈ K, TrueS M s) ∧
      insert cell st.safes ∩ M = ∅ ∧ st.mines ⊆ M
    exact ⟨hK, hK, hsafes, hmines⟩
  show (∀ s ∈ removedFn _, TrueS M s) ∧ _ ∧ _ ∧ _
  exact ⟨fun s hs => hc.1 s (removedFn_mem hs), hc.2.2.1, hc.2.2.2, hmoves⟩

/-- `add_knowledge` preserves the soundness invariant when fed the board's
true count of a revealed non-mine cell. -/
theorem AIInv_add_knowledge (h w : ℤ) (M : Finset Cell) (st : MinesweeperAI) (cell : Cell)
    (hh : h ≤ 8) (hw : w ≤ 8) (hM : M ⊆ gridCells h w) (hcell : cell ∉ M)
    (hinv : AIInv M st) : AIInv M (add_knowledge st cell (nearbyMines h w M cell)) := by
  have hmoves' : insert cell st.moves_made ∩ M = ∅ := by
    apply Finset.eq_empty_iff_forall_not_mem.mpr
    intro x hx
    rcases Finset.mem_insert.mp (Finset.mem_inter.mp hx).1 with rfl | hxm
    · exact hcell (Finset.mem_inter.mp hx).2
    · have : x ∈ st.moves_made ∩ M :=
        Finset.mem_inter.mpr ⟨hxm, (Finset.mem_inter.mp hx).2⟩
      rw [hinv.2.2.2] at this
      exact Finset.not_mem_empty x this
  have hsafes' : insert cell st.safes ∩ M = ∅ := by
    apply Finset.eq_empty_iff_forall_not_mem.mpr
    intro x hx
    rcases Finset.mem_insert.mp (Finset.mem_inter.mp hx).1 with rfl | hxm
    · exact hcell (Finset.mem_inter.mp hx).2
    · have : x ∈ st.safes ∩ M :=
        Finset.mem_inter.mpr ⟨hxm, (Finset.mem_inter.mp hx).2⟩
      rw [hinv.2.1] at this
      exact Finset.not_mem_empty x this
  have hknow2 := add_knowledge_know2_true h w M st cell hh hw hM hcell hinv.1 hinv.2.2.2
  unfold add_knowledge
  dsimp only
  exact AIInv_assemble M st cell _ hknow2 hsafes' hinv.2.2.1 hmoves'

/-- All reachable sound states satisfy the soundness invariant. -/
theorem AIInv_reachable (h w : ℤ) (M : Finset Cell) (st : MinesweeperAI)
    (hh : h ≤ 8) (hw : w ≤ 8) (hM : M ⊆ gridCells h w)
    (hr : ReachableSound h w M st) : AIInv M st := by
  induction hr with
  | init =>
      exact ⟨fun s hs => absurd hs (List.not_mem_nil s), Finset.empty_inter M,
             Finset.empty_subset M, Finset.empty_inter M⟩
  | step cell hst hgrid hcell ih =>
      exact AIInv_add_knowledge h w M _ cell hh hw hM hcell ih

/-- C4 amended: with the configured dimensions inside the hardcoded bound 8
and board-consistent counts, every live sentence keeps
`0 ≤ count ≤ |cells|` after every `record` call.  (On larger boards this
fails — see `ai_c4_counterexample`.) -/
theorem ai_c4_invariant (h w : ℤ) (M : Finset Cell) (st : MinesweeperAI)
    (hh : h ≤ 8) (hw : w ≤ 8) (hM : M ⊆ gridCells h w)
    (hr : ReachableSound h w M st) :
    ∀ s ∈ st.knowledge, 0 ≤ s.count ∧ s.count ≤ (s.cells.card : ℤ) := by
  intro s hs
  have ht := (AIInv_reachable h w M st hh hw hM hr).1 s hs
  unfold TrueS at ht
  constructor
  · rw [← ht]
    exact_mod_cast Nat.zero_le _
  · rw [← ht]
    exact_mod_cast Finset.card_le_card Finset.inter_subset_left

/-- Witness for `ai_c4_invariant`: a sound 8×8 reveal. -/
theorem ai_c4_invariant_witness :
    (8 : ℤ) ≤ 8 ∧ ({((1,1) : Cell)} : Finset Cell) ⊆ gridCells 8 8 ∧
    (∀ s ∈ (add_knowledge (initAI 8 8) (0,0) 1).knowledge,
      0 ≤ s.count ∧ s.count ≤ (s.cells.card : ℤ)) := by
  refine ⟨by decide, by decide, ?_⟩
  have h1 : nearbyMines 8 8 {(1,1)} (0,0) = 1 := by decide
  have hr := ReachableSound.step (0,0) (@ReachableSound.init 8 8 {(1,1)})
    (by decide) (by decide)
  rw [h1] at hr
  exact ai_c4_invariant 8 8 {(1,1)} _ (by decide) (by decide) (by decide) hr

/-- C6 amended: with the configured dimensions inside the hardcoded bound 8
and board-consistent counts, `safes` and `mines` stay disjoint after every
`record` call.  (On larger boards this fails — see
`ai_c6_counterexample`.) -/
theorem ai_c6_disjoint (h w : ℤ) (M : Finset Cell) (st : MinesweeperAI)
    (hh : h ≤ 8) (hw : w ≤ 8) (hM : M ⊆ gridCells h w)
    (hr : ReachableSound h w M st) :
    st.safes ∩ st.mines = ∅ := by
  have hinv := AIInv_reachable h w M st hh hw hM hr
  apply Finset.eq_empty_iff_forall_not_mem.mpr
  intro x hx
  have hxs := (Finset.mem_inter.mp hx).1
  have hxm := (Finset.mem_inter.mp hx).2
  have hxM : x ∈ M := hinv.2.2.1 hxm
  have : x ∈ st.safes ∩ M := Finset.mem_inter.mpr ⟨hxs, hxM⟩
  rw [hinv.2.1] at this
  exact Finset.not_mem_empty x this

/-- Witness for `ai_c6_disjoint`: a sound 8×8 reveal. -/
theorem ai_c6_disjoint_witness :
    (8 : ℤ) ≤ 8 ∧ ({((1,1) : Cell)} : Finset Cell) ⊆ gridCells 8 8 ∧
    (add_knowledge (initAI 8 8) (0,0) 1).safes ∩
      (add_knowledge (initAI 8 8) (0,0) 1).mines = ∅ := by
  refine ⟨by decide, by decide, ?_⟩
  have h1 : nearbyMines 8 8 {(1,1)} (0,0) = 1 := by decide
  have hr := ReachableSound.step (0,0) (@ReachableSound.init 8 8 {(1,1)})
    (by decide) (by decide)
  rw [h1] at hr
  exact ai_c6_disjoint 8 8 {(1,1)} _ (by decide) (by decide) (by decide) hr

/-! ### Small facts feeding the resolution-fixpoint proof (C2) -/

theorem cells_empty_not_fire {t : Sentence} (h : t.cells = ∅) :
    ¬t.fireSafes ∧ ¬t.fireMines :=
  ⟨fun hf => hf.2 h, fun hf => hf.2 h⟩

theorem removedGo_no_empty (l : List Sentence) :
    ∀ acc : List Sentence, emptyS ∉ acc → emptyS ∉ removedGo acc l := by
  induction l with
  | nil => intro acc hacc; exact hacc
  | cons s rest ih =>
      intro acc hacc
      show emptyS ∉ removedGo _ rest
      apply ih
      split
      · exact hacc
      · rename_i hc
        intro hmem
        rcases List.mem_append.mp hmem with h1 | h1
        · exact hacc h1
        · rcases List.mem_singleton.mp h1 with h1
          exact hc (Or.inr h1.symm)

theorem removedFn_no_empty (l : List Sentence) : emptyS ∉ removedFn l :=
  removedGo_no_empty l [] (List.not_mem_nil emptyS)

theorem removedGo_mem_complete (l : List Sentence) :
    ∀ (acc : List Sentence) (v : Sentence), v ≠ emptyS → (v ∈ acc ∨ v ∈ l) →
      v ∈ removedGo acc l := by
  induction l with
  | nil =>
      intro acc v hv h
      rcases h with h | h
      · exact h
      · exact absurd h (List.not_mem_nil v)
  | cons s rest ih =>
      intro acc v hv h
      show v ∈ removedGo _ rest
      apply ih _ v hv
      by_cases hc : s ∈ acc ∨ s = emptyS
      · rw [if_pos hc]
        rcases h with h | h
        · exact Or.inl h
        · rcases List.mem_cons.mp h with rfl | h1
          · rcases hc with hc | hc
            · exact Or.inl hc
            · exact absurd hc hv
          · exact Or.inr h1
      · rw [if_neg hc]
        rcases h with h | h
        · exact Or.inl (List.mem_append.mpr (Or.inl h))
        · rcases List.mem_cons.mp h with rfl | h1
          · exact Or.inl (List.mem_append.mpr (Or.inr (List.mem_singleton.mpr rfl)))
          · exact Or.inr h1

theorem removedFn_mem_of (l : List Sentence) (v : Sentence) (hv : v ≠ emptyS)
    (h : v ∈ l) : v ∈ removedFn l :=
  removedGo_mem_complete l [] v hv (Or.inr h)

theorem inferOne_ne_empty {ki sentence t : Sentence} (ht : t ∈ inferOne ki sentence) :
    t ≠ emptyS := by
  unfold inferOne at ht
  split at ht
  · dsimp only at ht
    split at ht
    · exact absurd ht (List.not_mem_nil t)
    · rcases List.mem_singleton.mp ht with rfl
      rename_i hne
      exact hne
  · split at ht
    · dsimp only at ht
      split at ht
      · exact absurd ht (List.not_mem_nil t)
      · rcases List.mem_singleton.mp ht with rfl
        rename_i hne
        exact hne
    · exact absurd ht (List.not_mem_nil t)

theorem foldl_append_shift {g : Sentence → List Sentence} (l : List Sentence) :
    ∀ acc : List Sentence,
      l.foldl (fun a b => a ++ g b) acc = acc ++ l.foldl (fun a b => a ++ g b) [] := by
  induction l with
  | nil => intro acc; simp
  | cons b rest ih =>
      intro acc
      show rest.foldl _ (acc ++ g b) = acc ++ rest.foldl _ ([] ++ g b)
      rw [ih (acc ++ g b), ih ([] ++ g b)]
      simp

/-- When the new sentence is the empty sentence, every old sentence `ki`
contributes exactly one inference: `ki` itself if its cell set is
non-empty, the empty-cells sentence `(∅, -ki.count)` otherwise (the
`inferred != empty` test only drops the contribution of an exactly-empty
old sentence, which the entry invariant excludes). -/
theorem inferOne_emptyS {ki : Sentence} (hki : ki ≠ emptyS) :
    inferOne ki emptyS = if ki.cells = ∅ then [⟨∅, 0 - ki.count⟩] else [ki] := by
  by_cases hc : ki.cells = ∅
  · rw [if_pos hc]
    unfold inferOne
    rw [if_pos (by rw [hc]; exact Finset.Subset.refl _)]
    dsimp only
    have hne : (⟨emptyS.cells \ ki.cells, emptyS.count - ki.count⟩ : Sentence) ≠ emptyS := by
      intro he
      apply hki
      have h1 : emptyS.count - ki.count = 0 := congrArg Sentence.count he
      have h2 : ki.count = 0 := by
        have h3 : (0 : ℤ) - ki.count = 0 := h1
        omega
      show ki = emptyS
      rw [show emptyS = (⟨∅, 0⟩ : Sentence) from rfl]
      cases ki
      simp_all
    rw [if_neg hne]
    show [(⟨(∅ : Finset Cell) \ ki.cells, 0 - ki.count⟩ : Sentence)] = _
    rw [Finset.empty_sdiff]
  · rw [if_neg hc]
    unfold inferOne
    have hns : ¬(ki.cells ⊆ emptyS.cells) := fun hsub => hc (Finset.subset_empty.mp hsub)
    rw [if_neg hns, if_pos (show emptyS.cells ⊆ ki.cells from Finset.empty_subset ki.cells)]
    dsimp only
    have hne : (⟨ki.cells \ emptyS.cells, ki.count - emptyS.count⟩ : Sentence) ≠ emptyS := by
      intro he
      apply hc
      have h1 : ki.cells \ emptyS.cells = emptyS.cells := congrArg Sentence.cells he
      rw [show emptyS.cells = (∅ : Finset Cell) from rfl, Finset.sdiff_empty] at h1
      exact h1
    rw [if_neg hne]
    show [(⟨ki.cells \ (∅ : Finset Cell), ki.count - 0⟩ : Sentence)] = [ki]
    rw [Finset.sdiff_empty]
    norm_num

/-! ### Anatomy of one `for` pass: clean walks and the one-empty walk -/

/-- Past the end of `KB` the pass just reports the last loop value. -/
theorem concludeForAux_at_end (fuel : ℕ) (s : CState) (i : ℕ) (last : Option Sentence)
    (h : s.kb.length ≤ i) : concludeForAux fuel s i last = .done s last := by
  cases fuel with
  | zero => rfl
  | succ fuel =>
      rw [concludeForAux, List.get?_eq_none.mpr h]

/-- Walking a clean segment `P` (no empty sentence) of `KB` without firing
checks every element of `P` and moves the index past it, leaving the state
untouched. -/
theorem concludeForAux_walk (P : List Sentence) :
    ∀ (fuel : ℕ) (A B : List Sentence) (s : CState) (last : Option Sentence)
      (s' : CState) (last' : Option Sentence),
      s.kb = A ++ P ++ B → s.kb.length ≤ fuel + A.length → emptyS ∉ P →
      concludeForAux fuel s A.length last = .done s' last' →
      (∀ t ∈ P, ¬t.fireSafes ∧ ¬t.fireMines) ∧
      ∃ (fuel' : ℕ) (last2 : Option Sentence),
        s.kb.length ≤ fuel' + (A.length + P.length) ∧
        concludeForAux fuel' s (A.length + P.length) last2 = .done s' last' ∧
        last2 = (if P = [] then last else P.getLast?) := by
  induction P with
  | nil =>
      intro fuel A B s last s' last' hkb hfuel hP h
      refine ⟨fun t ht => absurd ht (List.not_mem_nil t), fuel, last, by simpa using hfuel,
        by simpa using h, by simp⟩
  | cons p P' ih =>
      intro fuel A B s last s' last' hkb hfuel hP h
      have hlen : s.kb.length = A.length + (1 + (P'.length + B.length)) := by
        rw [hkb]; simp; omega
      obtain ⟨f, rfl⟩ : ∃ f, fuel = f + 1 := ⟨fuel - 1, by omega⟩
      have hget : s.kb.get? A.length = some p := by
        have hkb' : s.kb = A ++ (p :: (P' ++ B)) := by rw [hkb]; simp
        rw [hkb', List.get?_append_right (le_refl A.length)]
        simp
      rw [concludeForAux, hget] at h
      dsimp only at h
      have hpne : p ≠ emptyS := fun he => hP (he ▸ List.mem_cons_self p P')
      rw [if_neg hpne] at h
      by_cases hfs : p.fireSafes
      · rw [if_pos hfs] at h
        exact absurd h (by simp)
      · rw [if_neg hfs] at h
        by_cases hfm : p.fireMines
        · rw [if_pos hfm] at h
          exact absurd h (by simp)
        · rw [if_neg hfm] at h
          have hkb2 : s.kb = (A ++ [p]) ++ P' ++ B := by rw [hkb]; simp
          have hfuel2 : s.kb.length ≤ f + (A ++ [p]).length := by
            simp only [List.length_append, List.length_cons]
            omega
          have h2 : concludeForAux f s (A ++ [p]).length (some p) = .done s' last' := by
            have hl1 : (A ++ [p]).length = A.length + 1 := by simp
            rw [hl1]
            exact h
          obtain ⟨hNF, fuel', last2, hf', hrun, hlast2⟩ :=
            ih f (A ++ [p]) B s (some p) s' last' hkb2 hfuel2
              (fun he => hP (List.mem_cons_of_mem p he)) h2
          have hlp : (A ++ [p]).length = A.length + 1 := by simp
          rw [hlp] at hf' hrun
          refine ⟨?_, fuel', last2, ?_, ?_, ?_⟩
          · intro t ht
            rcases List.mem_cons.mp ht with rfl | ht'
            · exact ⟨hfs, hfm⟩
            · exact hNF t ht'
          · simp only [List.length_cons]
            omega
          · have heq : A.length + (p :: P').length = A.length + 1 + P'.length := by
              simp only [List.length_cons]
              omega
            rw [heq]
            exact hrun
          · rw [hlast2]
            cases P' with
            | nil => simp
            | cons q Q =>
                rw [if_neg (by simp), if_neg (by simp), List.getLast?_cons_cons]

/-- A full pass over an empty-free `KB` that runs to the end fires nothing:
the state is unchanged, every sentence is certified non-fireable and the
loop variable ends on the last element. -/
theorem concludeForAux_clean_done (fuel : ℕ) (s : CState) (s' : CState)
    (last' : Option Sentence) (hfuel : s.kb.length ≤ fuel) (hclean : emptyS ∉ s.kb)
    (h : concludeForAux fuel s 0 none = .done s' last') :
    s' = s ∧ NFList s.kb ∧ last' = (if s.kb = [] then none else s.kb.getLast?) := by
  have hkb : s.kb = [] ++ s.kb ++ [] := by simp
  have h0 : concludeForAux fuel s ([] : List Sentence).length none = .done s' last' := h
  obtain ⟨hNF, fuel', last2, hf', hrun, hlast2⟩ :=
    concludeForAux_walk s.kb fuel [] [] s none s' last' hkb (by simpa using hfuel)
      hclean h0
  have hend : concludeForAux fuel' s (([] : List Sentence).length + s.kb.length) last2 =
      .done s last2 := by
    apply concludeForAux_at_end
    simp
  rw [hend] at hrun
  have hs' : s = s' := ((PassResult.done.injEq _ _ _ _).mp hrun).1
  have hl' : last2 = last' := ((PassResult.done.injEq _ _ _ _).mp hrun).2
  refine ⟨hs'.symm, hNF, ?_⟩
  rw [← hl', hlast2]

/-- A full pass over `KB = L ++ [empty] ++ R` that runs to the end: the
empty sentence is removed, `L` and the tail of `R` are certified
non-fireable (the head of `R` is skipped by the shifted iteration), and the
loop variable ends on the last element of `R.drop 1` — or on the removed
empty when `R` has at most one element. -/
theorem concludeForAux_SB_done (fuel : ℕ) (L R : List Sentence) (s : CState)
    (s' : CState) (last' : Option Sentence)
    (hkb : s.kb = L ++ emptyS :: R) (hL : emptyS ∉ L) (hR : emptyS ∉ R)
    (hfuel : s.kb.length ≤ fuel)
    (h : concludeForAux fuel s 0 none = .done s' last') :
    s' = CState.cErase emptyS s ∧ s'.kb = L ++ R ∧
    (∀ t ∈ L, ¬t.fireSafes ∧ ¬t.fireMines) ∧
    (∀ t ∈ R.drop 1, ¬t.fireSafes ∧ ¬t.fireMines) ∧
    last' = (if R.drop 1 = [] then some emptyS else (R.drop 1).getLast?) := by
  -- phase 1: walk the clean prefix `L`
  have hkb1 : s.kb = [] ++ L ++ (emptyS :: R) := by simpa using hkb
  obtain ⟨hNFL, fuel1, last1, hf1, hrun1, -⟩ :=
    concludeForAux_walk L fuel [] (emptyS :: R) s none s' last' hkb1
      (by simpa using hfuel) hL h
  simp only [List.length_nil, Nat.zero_add] at hf1 hrun1
  -- phase 2: the step that removes the empty sentence
  have hlen : s.kb.length = L.length + 1 + R.length := by
    rw [hkb]
    simp only [List.length_append, List.length_cons]
    omega
  obtain ⟨f1, rfl⟩ : ∃ f, fuel1 = f + 1 := ⟨fuel1 - 1, by omega⟩
  have hget : s.kb.get? L.length = some emptyS := by
    rw [hkb, List.get?_append_right (le_refl L.length)]
    simp
  rw [concludeForAux, hget] at hrun1
  dsimp only at hrun1
  rw [if_pos rfl, if_neg fireSafes_emptyS, if_neg fireMines_emptyS] at hrun1
  have hkbE : (CState.cErase emptyS s).kb = L ++ R := by
    show s.kb.erase emptyS = L ++ R
    rw [hkb, List.erase_append_right _ hL, List.erase_cons_head]
  -- phase 3: walk the remaining segment `R.drop 1` (skipping `R`'s head)
  cases R with
  | nil =>
      have hend : concludeForAux f1 (CState.cErase emptyS s) (L.length + 1) (some emptyS) =
          .done (CState.cErase emptyS s) (some emptyS) := by
        apply concludeForAux_at_end
        rw [hkbE]
        simp only [List.append_nil]
        omega
      rw [hend] at hrun1
      have hs' : CState.cErase emptyS s = s' := ((PassResult.done.injEq _ _ _ _).mp hrun1).1
      have hl' : (some emptyS : Option Sentence) = last' :=
        ((PassResult.done.injEq _ _ _ _).mp hrun1).2
      refine ⟨hs'.symm, ?_, hNFL, fun t ht => absurd ht (List.not_mem_nil t), ?_⟩
      · rw [← hs']
        exact hkbE
      · rw [← hl']
        rfl
  | cons r R' =>
      have hkb3 : (CState.cErase emptyS s).kb = (L ++ [r]) ++ R' ++ [] := by
        rw [hkbE]; simp
      have hidx : L.length + 1 = (L ++ [r]).length := by simp
      rw [hidx] at hrun1
      have hfuel3 : (CState.cErase emptyS s).kb.length ≤ f1 + (L ++ [r]).length := by
        rw [hkbE]
        simp only [List.length_append, List.length_cons, List.length_singleton]
        simp only [List.length_cons] at hlen
        omega
      obtain ⟨hNFR, fuel2, last2, hf2, hrun2, hlast2⟩ :=
        concludeForAux_walk R' f1 (L ++ [r]) [] (CState.cErase emptyS s) (some emptyS)
          s' last' hkb3 hfuel3 (fun he => hR (List.mem_cons_of_mem r he)) hrun1
      have hend : concludeForAux fuel2 (CState.cErase emptyS s)
          ((L ++ [r]).length + R'.length) last2 =
          .done (CState.cErase emptyS s) last2 := by
        apply concludeForAux_at_end
        rw [hkbE]
        simp only [List.length_append, List.length_cons, List.length_singleton]
        omega
      rw [hend] at hrun2
      have hs' : CState.cErase emptyS s = s' := ((PassResult.done.injEq _ _ _ _).mp hrun2).1
      have hl' : last2 = last' := ((PassResult.done.injEq _ _ _ _).mp hrun2).2
      refine ⟨hs'.symm, by rw [← hs']; exact hkbE, hNFL, ?_, ?_⟩
      · show ∀ t ∈ R', _
        exact hNFR
      · show last' = if R' = [] then some emptyS else R'.getLast?
        rw [← hl', hlast2]

/-! ### The local `KB` covers `self.knowledge` up to empties -/

theorem mark_safe_emptyS (c : Cell) : Sentence.mark_safe c emptyS = emptyS := by
  simp [Sentence.mark_safe, emptyS]

theorem mark_mine_emptyS (c : Cell) : Sentence.mark_mine c emptyS = emptyS := by
  simp [Sentence.mark_mine, emptyS]

theorem markFold_safe_emptyS (l : List Cell) :
    markFold Sentence.mark_safe l emptyS = emptyS := by
  rw [markFold_safe]
  show (⟨(∅ : Finset Cell) \ l.toFinset, 0⟩ : Sentence) = emptyS
  rw [Finset.empty_sdiff]
  rfl

theorem markFold_mine_emptyS (l : List Cell) :
    markFold Sentence.mark_mine l emptyS = emptyS := by
  induction l with
  | nil => rfl
  | cons c cs ih =>
      show markFold Sentence.mark_mine cs (Sentence.mark_mine c emptyS) = emptyS
      rw [mark_mine_emptyS]
      exact ih

theorem kbCovers_map (g : Sentence → Sentence) (hg : g emptyS = emptyS) (cs : CState)
    (h : kbCovers cs) :
    kbCovers ⟨cs.safes, cs.mines, cs.knowledge.map g, cs.kb.map g, cs.aliased⟩ := by
  intro v hv
  obtain ⟨u, hu, rfl⟩ := List.mem_map.mp hv
  rcases h u hu with huk | rfl
  · exact Or.inl (List.mem_map_of_mem g huk)
  · exact Or.inr hg

theorem kbCovers_map' (g : Sentence → Sentence) (hg : g emptyS = emptyS) (a b : Finset Cell)
    (cs : CState) (h : kbCovers cs) :
    kbCovers ⟨a, b, cs.knowledge.map g, cs.kb.map g, cs.aliased⟩ := by
  intro v hv
  obtain ⟨u, hu, rfl⟩ := List.mem_map.mp hv
  rcases h u hu with huk | rfl
  · exact Or.inl (List.mem_map_of_mem g huk)
  · exact Or.inr hg

theorem kbCovers_cErase {cs : CState} (h : kbCovers cs) :
    kbCovers (CState.cErase emptyS cs) := by
  intro v hv
  have hv' : v ∈ cs.knowledge := cErase_knowledge_mem hv
  rcases h v hv' with hvk | rfl
  · by_cases hve : v = emptyS
    · exact Or.inr hve
    · exact Or.inl (List.mem_erase_of_ne hve |>.mpr hvk)
  · exact Or.inr rfl

theorem kbCovers_cRebind {cs : CState} (h : kbCovers cs) :
    kbCovers cs.cRebind := by
  intro v hv
  have hv' : v ∈ cs.knowledge := hv
  rcases h v hv' with hvk | rfl
  · by_cases hve : v = emptyS
    · exact Or.inr hve
    · exact Or.inl (removedFn_mem_of _ v hve hvk)
  · exact Or.inr rfl

theorem kbCovers_markAllSafe (cells : List Cell) (cs : CState) (h : kbCovers cs) :
    kbCovers (CState.markAllSafe cells cs) := by
  rw [markAllSafe_full]
  exact kbCovers_map' (markFold Sentence.mark_safe cells) (markFold_safe_emptyS cells)
    _ _ cs h

theorem kbCovers_markAllMine (cells : List Cell) (cs : CState) (h : kbCovers cs) :
    kbCovers (CState.markAllMine cells cs) := by
  rw [markAllMine_full]
  exact kbCovers_map' (markFold Sentence.mark_mine cells) (markFold_mine_emptyS cells)
    _ _ cs h

theorem kbCovers_fireStep (safe : Bool) (k : Sentence) (cs : CState) (h : kbCovers cs) :
    kbCovers (fireStep safe k cs) := by
  cases safe with
  | true =>
      exact kbCovers_cRebind (kbCovers_cErase (kbCovers_markAllSafe (cellsList k.cells) cs h))
  | false =>
      exact kbCovers_cRebind (kbCovers_cErase (kbCovers_markAllMine (cellsList k.cells) cs h))

theorem kbCovers_concludeForAux (fuel : ℕ) :
    ∀ (s : CState) (i : ℕ) (last : Option Sentence),
      kbCovers s → kbCovers (concludeForAux fuel s i last).state := by
  induction fuel with
  | zero => intro s i last h; exact h
  | succ fuel ih =>
      intro s i last h
      rw [concludeForAux]
      cases hget : s.kb.get? i with
      | none => exact h
      | some k =>
          dsimp only
          by_cases hke : k = emptyS
          · rw [if_pos hke, if_neg (hke ▸ fireSafes_emptyS), if_neg (hke ▸ fireMines_emptyS)]
            exact ih (CState.cErase emptyS s) (i + 1) (some k) (kbCovers_cErase h)
          · rw [if_neg hke]
            by_cases hfs : k.fireSafes
            · rw [if_pos hfs]
              exact kbCovers_fireStep true k s h
            · rw [if_neg hfs]
              by_cases hfm : k.fireMines
              · rw [if_pos hfm]
                exact kbCovers_fireStep false k s h
              · rw [if_neg hfm]
                exact ih s (i + 1) (some k) h

theorem kbCovers_concludeLoop (fuel : ℕ) :
    ∀ s : CState, kbCovers s → kbCovers (concludeLoop fuel s) := by
  induction fuel with
  | zero => intro s h; exact h
  | succ fuel ih =>
      intro s h
      rw [concludeLoop]
      have hpa := kbCovers_concludeForAux s.kb.length s 0 none h
      cases hpass : concludeForAux s.kb.length s 0 none with
      | fired s' =>
          rw [hpass] at hpa
          dsimp only
          by_cases hstop : whileStop (some emptyS) s'.kb = true
          · rw [if_pos hstop]; exact hpa
          · rw [if_neg hstop]; exact ih s' hpa
      | done s' last =>
          rw [hpass] at hpa
          dsimp only
          by_cases hstop : whileStop last s'.kb = true
          · rw [if_pos hstop]; exact hpa
          · rw [if_neg hstop]; exact ih s' hpa

/-! ### The loop's result fires on nothing -/

/-- A firing always leaves the local `KB` deduplicated and empty-free. -/
theorem concludeForAux_fired_clean (fuel : ℕ) :
    ∀ (s : CState) (i : ℕ) (last : Option Sentence) (s' : CState),
      concludeForAux fuel s i last = .fired s' → emptyS ∉ s'.kb := by
  induction fuel with
  | zero =>
      intro s i last s' h
      exact absurd h (by simp [concludeForAux])
  | succ fuel ih =>
      intro s i last s' h
      rw [concludeForAux] at h
      cases hget : s.kb.get? i with
      | none =>
          rw [hget] at h
          exact absurd h (by simp)
      | some k =>
          rw [hget] at h
          dsimp only at h
          by_cases hke : k = emptyS
          · rw [if_pos hke, if_neg (hke ▸ fireSafes_emptyS), if_neg (hke ▸ fireMines_emptyS)] at h
            exact ih _ (i + 1) (some k) s' h
          · rw [if_neg hke] at h
            by_cases hfs : k.fireSafes
            · rw [if_pos hfs] at h
              have hs' : s' = fireStep true k s := ((PassResult.fired.injEq _ _).mp h).symm
              rw [hs']
              exact removedFn_no_empty _
            · rw [if_neg hfs] at h
              by_cases hfm : k.fireMines
              · rw [if_pos hfm] at h
                have hs' : s' = fireStep false k s := ((PassResult.fired.injEq _ _).mp h).symm
                rw [hs']
                exact removedFn_no_empty _
              · rw [if_neg hfm] at h
                exact ih s (i + 1) (some k) s' h

/-- After a firing the loop returns only with an exhausted `KB`. -/
theorem whileStop_empty_of_clean {kb : List Sentence}
    (hstop : whileStop (some emptyS) kb = true) (hclean : emptyS ∉ kb) : kb = [] := by
  unfold whileStop at hstop
  cases hkb : kb.getLast? with
  | none => exact List.getLast?_eq_none_iff.mp hkb
  | some v =>
      rw [hkb] at hstop
      have hv : emptyS = v := by
        have := of_decide_eq_true hstop
        exact Option.some.inj this
      have hvmem : v ∈ kb := by
        rw [List.getLast?_eq_getElem?] at hkb
        exact List.getElem?_mem hkb
      exact absurd (hv ▸ hvmem) hclean

/-- The closure loop, started on a knowledge base that is empty-free or has
exactly the one-empty shape of `add_knowledge`'s freshly appended empty
sentence, ends with no live sentence fireable: a fixpoint of resolution. -/
theorem concludeLoop_NF (n : ℕ) :
    ∀ (s : CState) (fuel : ℕ), s.kb.length < n → s.kb.length + 1 ≤ fuel →
      (emptyS ∉ s.kb ∨ SBshape s.kb) →
      NFList (concludeLoop fuel s).kb := by
  induction n with
  | zero => intro s fuel h; omega
  | succ n ih =>
      intro s fuel hn hfuel hshape
      obtain ⟨f, rfl⟩ : ∃ f, fuel = f + 1 := ⟨fuel - 1, by omega⟩
      rw [concludeLoop]
      cases hpass : concludeForAux s.kb.length s 0 none with
      | fired s' =>
          dsimp only
          have hclean : emptyS ∉ s'.kb := concludeForAux_fired_clean _ s 0 none s' hpass
          have hlt : s'.kb.length < s.kb.length :=
            concludeForAux_fired _ s 0 none s' (by omega) hpass
          by_cases hstop : whileStop (some emptyS) s'.kb = true
          · rw [if_pos hstop]
            rw [whileStop_empty_of_clean hstop hclean]
            intro t ht
            exact absurd ht (List.not_mem_nil t)
          · rw [if_neg hstop]
            exact ih s' f (by omega) (by omega) (Or.inl hclean)
      | done s' last =>
          dsimp only
          rcases hshape with hclean | ⟨L, R, hkb, hL, hR, hhead⟩
          · obtain ⟨hs', hNF, hlast⟩ :=
              concludeForAux_clean_done s.kb.length s s' last (le_refl _) hclean hpass
            have hstop : whileStop last s'.kb = true := by
              rw [hs', hlast]
              by_cases hnil : s.kb = []
              · rw [if_pos hnil, hnil]
                rfl
              · rw [if_neg hnil]
                unfold whileStop
                cases hkb : s.kb.getLast? with
                | none => rfl
                | some v => simp
            rw [if_pos hstop, hs']
            exact hNF
          · obtain ⟨hs', hkb', hNFL, hNFR, hlast⟩ :=
              concludeForAux_SB_done s.kb.length L R s s' last hkb hL hR (le_refl _) hpass
            have hNFall : NFList s'.kb := by
              rw [hkb']
              intro t ht
              rcases List.mem_append.mp ht with htL | htR
              · exact hNFL t htL
              · rcases hhead with rfl | ⟨r, R', rfl, hr⟩
                · exact absurd htR (List.not_mem_nil t)
                · rcases List.mem_cons.mp htR with rfl | htR'
                  · rcases hr with ⟨L', hL'⟩ | hcells
                    · exact hNFL t (hL' ▸ List.mem_cons_self t L')
                    · exact cells_empty_not_fire hcells
                  · exact hNFR t htR'
            by_cases hstop : whileStop last s'.kb = true
            · rw [if_pos hstop]
              exact hNFall
            · rw [if_neg hstop]
              have hclean' : emptyS ∉ s'.kb := by
                rw [hkb']
                intro hmem
                rcases List.mem_append.mp hmem with h1 | h1
                · exact hL h1
                · exact hR h1
              have hlen' : s'.kb.length < s.kb.length := by
                rw [hkb', hkb]
                simp only [List.length_append, List.length_cons]
                omega
              exact ih s' f (by omega) (by omega) (Or.inl hclean')

/-! ### The shape of the list `conclude` starts from, and claim C2 -/

theorem know1_no_empty (st : MinesweeperAI) (cell : Cell)
    (hNF : NFList st.knowledge) (hNE : emptyS ∉ st.knowledge) :
    emptyS ∉ st.knowledge.map (Sentence.mark_safe cell) := by
  intro hmem
  obtain ⟨t, ht, heq⟩ := List.mem_map.mp hmem
  rw [mark_safe_eq] at heq
  have hcells : t.cells.erase cell = ∅ := congrArg Sentence.cells heq
  have hcount : t.count = 0 := congrArg Sentence.count heq
  rcases (Finset.erase_eq_empty_iff t.cells cell).mp hcells with h0 | h1
  · apply hNE
    have hte : t = emptyS := by
      rw [show emptyS = (⟨∅, 0⟩ : Sentence) from rfl]
      cases t
      simp_all
    exact hte ▸ ht
  · refine (hNF t ht).1 ⟨hcount, ?_⟩
    rw [h1]
    simp

theorem add_knowledge_know2_shape (st : MinesweeperAI) (cell : Cell) (count : ℤ)
    (hNF : NFList st.knowledge) (hNE : emptyS ∉ st.knowledge) :
    emptyS ∉ (if (⟨nbhdCells (insert cell st.moves_made) cell, count⟩ : Sentence) ∈
          st.knowledge.map (Sentence.mark_safe cell)
       then st.knowledge.map (Sentence.mark_safe cell)
       else (st.knowledge.map (Sentence.mark_safe cell) ++
              [(⟨nbhdCells (insert cell st.moves_made) cell, count⟩ : Sentence)]) ++
            (st.knowledge.map (Sentence.mark_safe cell)).foldl
              (fun acc ki => acc ++ inferOne ki
                ⟨nbhdCells (insert cell st.moves_made) cell, count⟩) []) ∨
    SBshape (if (⟨nbhdCells (insert cell st.moves_made) cell, count⟩ : Sentence) ∈
          st.knowledge.map (Sentence.mark_safe cell)
       then st.knowledge.map (Sentence.mark_safe cell)
       else (st.knowledge.map (Sentence.mark_safe cell) ++
              [(⟨nbhdCells (insert cell st.moves_made) cell, count⟩ : Sentence)]) ++
            (st.knowledge.map (Sentence.mark_safe cell)).foldl
              (fun acc ki => acc ++ inferOne ki
                ⟨nbhdCells (insert cell st.moves_made) cell, count⟩) []) := by
  have hk1 := know1_no_empty st cell hNF hNE
  by_cases hin : (⟨nbhdCells (insert cell st.moves_made) cell, count⟩ : Sentence) ∈
      st.knowledge.map (Sentence.mark_safe cell)
  · rw [if_pos hin]
    exact Or.inl hk1
  · rw [if_neg hin]
    by_cases hVe : (⟨nbhdCells (insert cell st.moves_made) cell, count⟩ : Sentence) = emptyS
    · right
      rw [hVe]
      refine ⟨st.knowledge.map (Sentence.mark_safe cell),
        (st.knowledge.map (Sentence.mark_safe cell)).foldl
          (fun acc ki => acc ++ inferOne ki emptyS) [], by simp, hk1, ?_, ?_⟩
      · intro hmem
        rcases foldl_append_mem _ _ emptyS hmem with hnil | ⟨ki, -, htinf⟩
        · exact absurd hnil (List.not_mem_nil emptyS)
        · exact inferOne_ne_empty htinf rfl
      · cases hknow1 : st.knowledge.map (Sentence.mark_safe cell) with
        | nil => exact Or.inl rfl
        | cons k0 rest =>
            have hk0 : k0 ≠ emptyS := by
              rw [hknow1] at hk1
              exact fun he => hk1 (he ▸ List.mem_cons_self k0 rest)
            right
            have hfold : (k0 :: rest).foldl (fun acc ki => acc ++ inferOne ki emptyS) [] =
                inferOne k0 emptyS ++
                  rest.foldl (fun acc ki => acc ++ inferOne ki emptyS) [] := by
              show rest.foldl (fun acc ki => acc ++ inferOne ki emptyS)
                ([] ++ inferOne k0 emptyS) = _
              rw [foldl_append_shift]
              simp
            rw [hfold, inferOne_emptyS hk0]
            by_cases hc : k0.cells = ∅
            · rw [if_pos hc]
              exact ⟨⟨∅, 0 - k0.count⟩,
                rest.foldl (fun acc ki => acc ++ inferOne ki emptyS) [], rfl, Or.inr rfl⟩
            · rw [if_neg hc]
              exact ⟨k0, rest.foldl (fun acc ki => acc ++ inferOne ki emptyS) [], rfl,
                Or.inl ⟨rest, rfl⟩⟩
    · left
      intro hmem
      rcases List.mem_append.mp hmem with h1 | h2
      · rcases List.mem_append.mp h1 with h1a | h1b
        · exact hk1 h1a
        · rcases List.mem_singleton.mp h1b with h1b
          exact hVe h1b.symm
      · rcases foldl_append_mem _ _ emptyS h2 with hnil | ⟨ki, -, htinf⟩
        · exact absurd hnil (List.not_mem_nil emptyS)
        · exact inferOne_ne_empty htinf rfl

theorem NF_assemble (safes0 mines0 : Finset Cell) (K : List Sentence)
    (hshape : emptyS ∉ K ∨ SBshape K) :
    NFList (removedFn (concludeLoop (K.length + 1)
      ⟨safes0, mines0, K, K, true⟩).knowledge) ∧
    emptyS ∉ removedFn (concludeLoop (K.length + 1)
      ⟨safes0, mines0, K, K, true⟩).knowledge := by
  have hNFkb : NFList (concludeLoop (K.length + 1) ⟨safes0, mines0, K, K, true⟩).kb :=
    concludeLoop_NF (K.length + 1) ⟨safes0, mines0, K, K, true⟩ (K.length + 1)
      (Nat.lt_succ_self _) (le_refl _) hshape
  have hcov : kbCovers (concludeLoop (K.length + 1) ⟨safes0, mines0, K, K, true⟩) :=
    kbCovers_concludeLoop (K.length + 1) ⟨safes0, mines0, K, K, true⟩
      (fun v hv => Or.inl hv)
  constructor
  · intro t ht
    have ht1 := removedFn_mem ht
    have hne : t ≠ emptyS := fun he => removedFn_no_empty _ (he ▸ ht)
    rcases hcov t ht1 with hkb | he
    · exact hNFkb t hkb
    · exact absurd he hne
  · exact removedFn_no_empty _

theorem add_knowledge_NF (st : MinesweeperAI) (cell : Cell) (count : ℤ)
    (hNF : NFList st.knowledge) (hNE : emptyS ∉ st.knowledge) :
    NFList (add_knowledge st cell count).knowledge ∧
    emptyS ∉ (add_knowledge st cell count).knowledge := by
  unfold add_knowledge
  dsimp only
  exact NF_assemble _ _ _ (add_knowledge_know2_shape st cell count hNF hNE)

/-- C2 amended: after every `add_knowledge` call (from any call sequence),
the knowledge base is at a fixpoint of *resolution*: no live sentence has a
truthy `known_safes()` or `known_mines()`.  It is not in general at a
fixpoint of subset inference — `ai_c2_counterexample` exhibits a live
subset pair whose non-trivial difference is absent — because the subset
rule runs only between the newly inserted sentence and the sentences
present at insertion. -/
theorem ai_c2_resolution_fixpoint (st : MinesweeperAI) (h : ReachableAI st) :
    ∀ s ∈ st.knowledge, ¬s.fireSafes ∧ ¬s.fireMines := by
  have hmain : NFList st.knowledge ∧ emptyS ∉ st.knowledge := by
    induction h with
    | init h w =>
        exact ⟨fun s hs => absurd hs (List.not_mem_nil s), List.not_mem_nil emptyS⟩
    | step cell count hst ih =>
        exact add_knowledge_NF _ cell count ih.1 ih.2
  exact hmain.1

/-- Witness for `ai_c2_resolution_fixpoint` on a concrete run. -/
theorem ai_c2_resolution_fixpoint_witness :
    (⟨{(0,1),(1,0),(1,1)}, 1⟩ : Sentence) ∈
      (add_knowledge (initAI 8 8) (0,0) 1).knowledge ∧
    ¬(⟨({(0,1),(1,0),(1,1)} : Finset Cell), 1⟩ : Sentence).fireSafes ∧
    ¬(⟨({(0,1),(1,0),(1,1)} : Finset Cell), 1⟩ : Sentence).fireMines :=
  ⟨by decide,
    ai_c2_resolution_fixpoint _ (ReachableAI.step (0,0) 1 (ReachableAI.init 8 8))
      ⟨{(0,1),(1,0),(1,1)}, 1⟩ (by decide)⟩
